import Mathlib

/-!
# EdgeSQL Lite — verification of the storage / execution core

A shallow embedding of the deterministic core of the EdgeSQL Lite engine
(paged slotted storage, write-ahead log, recovery, budget-enforced
execution, transaction coordinator), translated from the C++ sources,
together with theorems settling the specification's claims about it.

Machine integers are modelled as `Nat` with explicit `% 2^w` at the points
where the C++ code can wrap; byte sequences are `List Nat` with each byte
`< 256`; fallible C++ paths (boolean returns, exceptions) are `Option` /
`Except` values.
-/

namespace EdgeSQL

/-! ## Byte-level helpers (little-endian fixed-width fields)

The WAL serialises record headers with `memcpy` of a packed 32-byte
struct on a little-endian machine; these helpers model the individual
fields' byte images. -/

/-- Little-endian bytes of a 16-bit field. -/
def le16 (n : Nat) : List Nat := [n % 256, n / 256 % 256]

/-- Little-endian bytes of a 32-bit field. -/
def le32 (n : Nat) : List Nat :=
  [n % 256, n / 256 % 256, n / 65536 % 256, n / 16777216 % 256]

/-- Little-endian bytes of a 64-bit field. -/
def le64 (n : Nat) : List Nat :=
  [n % 256, n / 256 % 256, n / 65536 % 256, n / 16777216 % 256,
   n / 4294967296 % 256, n / 1099511627776 % 256,
   n / 281474976710656 % 256, n / 72057594037927936 % 256]

/-- Read a little-endian value back from bytes (all bytes taken). -/
def rdLE : List Nat → Nat
  | [] => 0
  | b :: rest => b % 256 + 256 * rdLE rest

theorem rdLE_le16 (n : Nat) (h : n < 65536) : rdLE (le16 n) = n := by
  simp [le16, rdLE]; omega

theorem rdLE_le32 (n : Nat) (h : n < 4294967296) : rdLE (le32 n) = n := by
  simp [le32, rdLE]; omega

theorem rdLE_le64 (n : Nat) (h : n < 18446744073709551616) :
    rdLE (le64 n) = n := by
  simp [le64, rdLE]; omega

/-! ## CRC32 (from `wal.cpp`, anonymous namespace)

The C++ builds a 256-entry table (`init_crc32_table`) where entry `i` is
eight rounds of the polynomial step on `i`, then folds
`crc = table[(crc ^ byte) & 0xFF] ^ (crc >> 8)` over the payload starting
from `0xFFFFFFFF` and finally inverts. -/

/-- One polynomial round: `crc = (crc >> 1) ^ (0xEDB88320 & -(crc & 1))`. -/
def crcStep (c : Nat) : Nat :=
  if c % 2 = 1 then (c / 2) ^^^ 0xEDB88320 else c / 2

/-- `crc32_table[i]`: eight rounds of `crcStep` applied to `i`. -/
def crcTable (i : Nat) : Nat := crcStep^[8] i

/-- Per-byte update of the running CRC. -/
def crcUpdate (crc b : Nat) : Nat :=
  crcTable ((crc ^^^ b) % 256) ^^^ (crc / 256)

/-- `compute_crc32(data, length)`. -/
def compute_crc32 (data : List Nat) : Nat :=
  (data.foldl crcUpdate 0xFFFFFFFF) ^^^ 0xFFFFFFFF

theorem xor_lt_u32 (a b : Nat) (ha : a < 4294967296) (hb : b < 4294967296) :
    a ^^^ b < 4294967296 := by
  have h32 : (4294967296 : Nat) = 2 ^ 32 := by norm_num
  rw [h32] at ha hb ⊢
  exact Nat.bitwise_lt ha hb

theorem crcStep_lt (c : Nat) (h : c < 4294967296) : crcStep c < 4294967296 := by
  unfold crcStep
  split
  · exact xor_lt_u32 _ _ (by omega) (by norm_num)
  · omega

theorem crcTable_lt (i : Nat) (h : i < 4294967296) : crcTable i < 4294967296 := by
  unfold crcTable
  have step : ∀ k c, c < 4294967296 → crcStep^[k] c < 4294967296 := by
    intro k
    induction k with
    | zero => intro c hc; simpa using hc
    | succ n ih =>
      intro c hc
      rw [Function.iterate_succ_apply]
      exact ih _ (crcStep_lt c hc)
  exact step 8 i h

theorem crcUpdate_lt (crc b : Nat) (h : crc < 4294967296) :
    crcUpdate crc b < 4294967296 := by
  unfold crcUpdate
  exact xor_lt_u32 _ _
    (crcTable_lt _ (lt_trans (Nat.mod_lt _ (by norm_num)) (by norm_num))) (by omega)

theorem compute_crc32_lt (data : List Nat) : compute_crc32 data < 4294967296 := by
  unfold compute_crc32
  have fold : ∀ l c, c < 4294967296 → List.foldl crcUpdate c l < 4294967296 := by
    intro l
    induction l with
    | nil => intro c hc; simpa using hc
    | cons b rest ih => intro c hc; exact ih _ (crcUpdate_lt c b hc)
  exact xor_lt_u32 _ _ (fold data _ (by norm_num)) (by norm_num)

/-! ## WAL records (`wal.hpp` / `wal.cpp`)

`WalRecordType` is a `uint8_t` enum; we keep the raw byte so that unknown
types (handled by the `default:` branch of `apply_record`) remain
representable, and name the enum values as constants. -/

/-- `WalRecordType` values (a `uint8_t` in the source). -/
def WAL_INSERT : Nat := 1
def WAL_UPDATE : Nat := 2
def WAL_DELETE : Nat := 3
def WAL_CREATE_TABLE : Nat := 4
def WAL_DROP_TABLE : Nat := 5
def WAL_CHECKPOINT : Nat := 6
def WAL_COMMIT : Nat := 7
def WAL_ROLLBACK : Nat := 8

/-- `WalRecordHeader`: the seven meaningful fields of the packed 32-byte
header.  The three reserved bytes and the two padding bytes carry no
information and serialise as zero in this model. -/
structure WalRecordHeader where
  lsn : Nat       -- uint64_t
  length : Nat    -- uint32_t, total record length including header
  crc32 : Nat     -- uint32_t, CRC32 of the payload
  type : Nat      -- WalRecordType (uint8_t)
  tableId : Nat   -- uint32_t
  pageId : Nat    -- uint32_t
  slotId : Nat    -- uint16_t
  deriving DecidableEq, Repr

/-- `WalRecord`: header plus payload bytes. -/
structure WalRecord where
  header : WalRecordHeader
  payload : List Nat
  deriving DecidableEq, Repr

/-- `WalRecord::calculate_crc32()`. -/
def WalRecord.calculate_crc32 (r : WalRecord) : Nat := compute_crc32 r.payload

/-- `WalRecord::is_valid()`. -/
def WalRecord.is_valid (r : WalRecord) : Bool :=
  r.header.crc32 = r.calculate_crc32

/-- `WalRecord::serialized_size()`. -/
def WalRecord.serialized_size (r : WalRecord) : Nat := 32 + r.payload.length

/-- Byte image of the packed header, field by field in declaration order
(little-endian fields; 3 reserved bytes after `type`, 2 padding bytes after
`slot_id`). -/
def serializeHeader (h : WalRecordHeader) : List Nat :=
  le64 h.lsn ++ le32 h.length ++ le32 h.crc32 ++
    [h.type % 256, 0, 0, 0] ++ le32 h.tableId ++ le32 h.pageId ++
    le16 h.slotId ++ [0, 0]

/-- `WalRecord::serialize` (the buffer-size check always passes for an
adequately sized buffer and is omitted): header image then payload. -/
def WalRecord.serializeRec (r : WalRecord) : List Nat :=
  serializeHeader r.header ++ r.payload

/-- `WalRecord::deserialize(data, length)`.  Fails when fewer than 32 bytes
are available, when the buffer is shorter than the recorded total length,
or when the CRC check (`is_valid`) fails.  A recorded length below 32 would
underflow `size_t` and abort in C++; it is a failure here. -/
def walHeaderFields (data : List Nat) : WalRecordHeader :=
  { lsn := rdLE (data.take 8)
    length := rdLE ((data.drop 8).take 4)
    crc32 := rdLE ((data.drop 12).take 4)
    type := rdLE ((data.drop 16).take 1)
    tableId := rdLE ((data.drop 20).take 4)
    pageId := rdLE ((data.drop 24).take 4)
    slotId := rdLE ((data.drop 28).take 2) }

def deserialize (data : List Nat) : Option WalRecord :=
  if data.length < 32 then none
  else
    let hdr := walHeaderFields data
    if hdr.length < 32 then none
    else
      let payloadSize := hdr.length - 32
      if data.length < hdr.length then none
      else
        let r : WalRecord := { header := hdr, payload := (data.drop 32).take payloadSize }
        if r.is_valid then some r else none

/-- The record-scanning loop of `Wal::read_from`: read a 32-byte header
(stop if it cannot be read in full); stop on a recorded length outside the
range `[32, 65536]` (65536 bytes is the read buffer size), on a short
payload read, or on a failed `deserialize`; otherwise yield the record and
continue after it.  `rdLE ((bytes.drop 8).take 4)` is the `length` field of
the header just read. -/
def readRecords (bytes : List Nat) : List WalRecord :=
  if bytes.length < 32 then []
  else if rdLE ((bytes.drop 8).take 4) < 32 ∨ rdLE ((bytes.drop 8).take 4) > 65536 then []
  else if bytes.length < rdLE ((bytes.drop 8).take 4) then []
  else
    match deserialize (bytes.take (rdLE ((bytes.drop 8).take 4))) with
    | some r => r :: readRecords (bytes.drop (rdLE ((bytes.drop 8).take 4)))
    | none => []
termination_by bytes.length
decreasing_by
  simp only [List.length_drop]
  omega

/-- `WalFileHeader` byte image for a fresh WAL file
(`magic = WAL_MAGIC, version = 1, first_lsn = 1, last_checkpoint_lsn = 0`),
as written by `Wal::write_header`. -/
def walFileHeaderBytes : List Nat := le32 0x57414C45 ++ le32 1 ++ le64 1 ++ le64 0

/-- In-memory WAL state: the next LSN to assign and the bytes of the record
region (everything after the 24-byte file header). -/
structure WalState where
  currentLsn : Nat
  data : List Nat
  deriving DecidableEq, Repr

/-- The stamping `Wal::append` performs on the copied record before
serialising: assign the current LSN, recompute total length and payload
CRC. -/
def stamp (lsn : Nat) (r : WalRecord) : WalRecord :=
  { header := { r.header with
      lsn := lsn
      length := 32 + r.payload.length
      crc32 := compute_crc32 r.payload }
    payload := r.payload }

/-- `Wal::append`: stamp, serialise, write, bump the LSN; returns the
assigned LSN (file-write failures are not modelled). -/
def walAppend (st : WalState) (r : WalRecord) : WalState × Nat :=
  ({ currentLsn := st.currentLsn + 1
     data := st.data ++ (stamp st.currentLsn r).serializeRec }, st.currentLsn)

/-- Appending a sequence of records in order. -/
def walAppendAll (st : WalState) (rs : List WalRecord) : WalState :=
  rs.foldl (fun s r => (walAppend s r).1) st

/-- The records of `rs` as `append` would stamp them starting at `l0`. -/
def stampedList (l0 : Nat) : List WalRecord → List WalRecord
  | [] => []
  | r :: rest => stamp l0 r :: stampedList (l0 + 1) rest

/-- `Wal::read_from(start_lsn)`: scan all records, keep those whose LSN is
`≥ start_lsn`.  (The boolean result of the C++ function is `false` only
when the WAL is not open, which is not modelled.) -/
def readFrom (startLsn : Nat) (st : WalState) : List WalRecord :=
  (readRecords st.data).filter (fun r => startLsn ≤ r.header.lsn)

/-- `Wal::read_all`. -/
def readAll (st : WalState) : List WalRecord := readFrom 1 st

/-- Consistency of a `WalRecord` as `Wal::append` establishes it before
serialising: recorded length and CRC match the payload and all header
fields fit their machine widths. -/
def wellFormed (r : WalRecord) : Prop :=
  r.header.length = 32 + r.payload.length ∧
  r.header.crc32 = compute_crc32 r.payload ∧
  r.header.lsn < 18446744073709551616 ∧
  r.header.length ≤ 65536 ∧
  r.header.type < 256 ∧
  r.header.tableId < 4294967296 ∧
  r.header.pageId < 4294967296 ∧
  r.header.slotId < 65536

instance (r : WalRecord) : Decidable (wellFormed r) := by
  unfold wellFormed; infer_instance

theorem walHeaderFields_ser (h : WalRecordHeader) (X : List Nat)
    (hlsn : h.lsn < 18446744073709551616) (hlen : h.length < 4294967296)
    (hcrc : h.crc32 < 4294967296) (hty : h.type < 256)
    (htab : h.tableId < 4294967296) (hpg : h.pageId < 4294967296)
    (hslot : h.slotId < 65536) :
    walHeaderFields (serializeHeader h ++ X) = h := by
  have hB : serializeHeader h ++ X =
      le64 h.lsn ++ (le32 h.length ++ (le32 h.crc32 ++
        ([h.type % 256, 0, 0, 0] ++ (le32 h.tableId ++ (le32 h.pageId ++
          (le16 h.slotId ++ ([0, 0] ++ X))))))) := by
    simp [serializeHeader, List.append_assoc]
  have d8 : (serializeHeader h ++ X).drop 8 =
      le32 h.length ++ (le32 h.crc32 ++ ([h.type % 256, 0, 0, 0] ++
        (le32 h.tableId ++ (le32 h.pageId ++ (le16 h.slotId ++ ([0, 0] ++ X)))))) := by
    rw [hB]; exact List.drop_left' (by simp [le64])
  have d12 : (serializeHeader h ++ X).drop 12 =
      le32 h.crc32 ++ ([h.type % 256, 0, 0, 0] ++
        (le32 h.tableId ++ (le32 h.pageId ++ (le16 h.slotId ++ ([0, 0] ++ X))))) := by
    rw [show (12 : Nat) = 8 + 4 from rfl, ← List.drop_drop, d8]
    exact List.drop_left' (by simp [le32])
  have d16 : (serializeHeader h ++ X).drop 16 =
      [h.type % 256, 0, 0, 0] ++
        (le32 h.tableId ++ (le32 h.pageId ++ (le16 h.slotId ++ ([0, 0] ++ X)))) := by
    rw [show (16 : Nat) = 12 + 4 from rfl, ← List.drop_drop, d12]
    exact List.drop_left' (by simp [le32])
  have d20 : (serializeHeader h ++ X).drop 20 =
      le32 h.tableId ++ (le32 h.pageId ++ (le16 h.slotId ++ ([0, 0] ++ X))) := by
    rw [show (20 : Nat) = 16 + 4 from rfl, ← List.drop_drop, d16]
    rfl
  have d24 : (serializeHeader h ++ X).drop 24 =
      le32 h.pageId ++ (le16 h.slotId ++ ([0, 0] ++ X)) := by
    rw [show (24 : Nat) = 20 + 4 from rfl, ← List.drop_drop, d20]
    exact List.drop_left' (by simp [le32])
  have d28 : (serializeHeader h ++ X).drop 28 =
      le16 h.slotId ++ ([0, 0] ++ X) := by
    rw [show (28 : Nat) = 24 + 4 from rfl, ← List.drop_drop, d24]
    exact List.drop_left' (by simp [le32])
  unfold walHeaderFields
  cases h with
  | mk lsn length crc32 ty tableId pageId slotId =>
    simp only [WalRecordHeader.mk.injEq] at *
    refine ⟨?_, ?_, ?_, ?_, ?_, ?_, ?_⟩
    · rw [hB, List.take_left' (by simp [le64])]
      exact rdLE_le64 _ hlsn
    · rw [d8, List.take_left' (by simp [le32])]
      exact rdLE_le32 _ hlen
    · rw [d12, List.take_left' (by simp [le32])]
      exact rdLE_le32 _ hcrc
    · rw [d16]
      show rdLE [ty % 256] = ty
      simp [rdLE]
      omega
    · rw [d20, List.take_left' (by simp [le32])]
      exact rdLE_le32 _ htab
    · rw [d24, List.take_left' (by simp [le32])]
      exact rdLE_le32 _ hpg
    · rw [d28, List.take_left' (by simp [le16])]
      exact rdLE_le16 _ hslot

theorem serializeRec_length (r : WalRecord) :
    r.serializeRec.length = 32 + r.payload.length := by
  simp [WalRecord.serializeRec, serializeHeader, le64, le32, le16]
  omega

/-- `deserialize` on a consistent serialised record (possibly followed by
further bytes) recovers the record exactly. -/
theorem deserialize_serialize (r : WalRecord) (wf : wellFormed r) (X : List Nat) :
    deserialize (r.serializeRec ++ X) = some r := by
  obtain ⟨hL, hC, hlsn, hlen, hty, htab, hpg, hslot⟩ := wf
  have hflds : walHeaderFields (r.serializeRec ++ X) = r.header := by
    rw [WalRecord.serializeRec, List.append_assoc]
    exact walHeaderFields_ser r.header _ hlsn (by omega)
      (by rw [hC]; exact compute_crc32_lt _) hty htab hpg hslot
  have hserlen := serializeRec_length r
  have hdrop : (r.serializeRec ++ X).drop 32 = r.payload ++ X := by
    unfold WalRecord.serializeRec serializeHeader le64 le32 le16
    simp only [List.cons_append, List.nil_append, List.append_assoc]
    simp
  unfold deserialize
  rw [hflds]
  simp only [List.length_append, hserlen]
  rw [if_neg (by omega), if_neg (by omega), if_neg (by omega)]
  rw [hdrop, hL]
  simp only [Nat.add_sub_cancel_left, List.take_append_of_le_length (le_refl _),
    List.take_length]
  have hv : ({ header := r.header, payload := r.payload } : WalRecord).is_valid := by
    simp [WalRecord.is_valid, WalRecord.calculate_crc32, hC]
  rw [if_pos hv]

/-- The `length` header field as `read_from` peeks it off a consistent
serialised record. -/
theorem rdLE_len_ser (r : WalRecord) (wf : wellFormed r) (X : List Nat) :
    rdLE (((r.serializeRec ++ X).drop 8).take 4) = r.header.length := by
  obtain ⟨hL, hC, hlsn, hlen, hty, htab, hpg, hslot⟩ := wf
  have hflds : walHeaderFields (r.serializeRec ++ X) = r.header := by
    rw [WalRecord.serializeRec, List.append_assoc]
    exact walHeaderFields_ser r.header _ hlsn (by omega)
      (by rw [hC]; exact compute_crc32_lt _) hty htab hpg hslot
  have := congrArg WalRecordHeader.length hflds
  simpa [walHeaderFields] using this

/-- One step of the `read_from` scan across a consistent serialised
record. -/
theorem readRecords_cons (r : WalRecord) (wf : wellFormed r) (X : List Nat) :
    readRecords (r.serializeRec ++ X) = r :: readRecords X := by
  have hfld := rdLE_len_ser r wf X
  obtain ⟨hL, hC, hlsn, hlen, hty, htab, hpg, hslot⟩ := wf
  have hserlen := serializeRec_length r
  have htake : (r.serializeRec ++ X).take r.header.length = r.serializeRec :=
    List.take_left' (by omega)
  have hdrop : (r.serializeRec ++ X).drop r.header.length = X :=
    List.drop_left' (by omega)
  rw [readRecords]
  simp only [hfld]
  rw [if_neg (by simp only [List.length_append, hserlen]; omega),
    if_neg (by omega), if_neg (by simp only [List.length_append, hserlen]; omega)]
  rw [htake]
  have hdes := deserialize_serialize r ⟨hL, hC, hlsn, hlen, hty, htab, hpg, hslot⟩ []
  rw [List.append_nil] at hdes
  rw [hdes, hdrop]

/-- Constraints a record must satisfy BEFORE stamping so that `append`
produces a well-formed record: payload fits the 64 KiB read buffer
(minus the 32-byte header) and the address fields fit their widths. -/
def prewf (r : WalRecord) : Prop :=
  r.payload.length ≤ 65504 ∧ r.header.type < 256 ∧
  r.header.tableId < 4294967296 ∧ r.header.pageId < 4294967296 ∧
  r.header.slotId < 65536

instance (r : WalRecord) : Decidable (prewf r) := by
  unfold prewf; infer_instance

theorem stamp_wellFormed (r : WalRecord) (hr : prewf r) (lsn : Nat)
    (hlsn : lsn < 18446744073709551616) : wellFormed (stamp lsn r) := by
  obtain ⟨h1, h2, h3, h4, h5⟩ := hr
  exact ⟨rfl, rfl, hlsn, by simp [stamp]; omega, h2, h3, h4, h5⟩

/-- The bytes `append` adds for `rs`, starting at LSN `l0`. -/
def serConcat (l0 : Nat) : List WalRecord → List Nat
  | [] => []
  | r :: rest => (stamp l0 r).serializeRec ++ serConcat (l0 + 1) rest

theorem walAppendAll_data (l0 : Nat) (d : List Nat) (rs : List WalRecord) :
    (walAppendAll ⟨l0, d⟩ rs).data = d ++ serConcat l0 rs := by
  induction rs generalizing l0 d with
  | nil => simp [walAppendAll, serConcat]
  | cons r rest ih =>
    show (walAppendAll ⟨l0 + 1, d ++ (stamp l0 r).serializeRec⟩ rest).data = _
    rw [ih, serConcat, List.append_assoc]

theorem readRecords_nil : readRecords [] = [] := by
  rw [readRecords]; simp

/-- Replaying the byte image of a stamped sequence (followed by arbitrary
further bytes) yields exactly the stamped records, then whatever the tail
parses as. -/
theorem readRecords_serConcat (rs : List WalRecord) (l0 : Nat) (Y : List Nat)
    (hwf : ∀ r ∈ rs, prewf r) (hbound : l0 + rs.length ≤ 18446744073709551616) :
    readRecords (serConcat l0 rs ++ Y) = stampedList l0 rs ++ readRecords Y := by
  induction rs generalizing l0 with
  | nil => simp [serConcat, stampedList]
  | cons r rest ih =>
    rw [serConcat, stampedList, List.append_assoc]
    rw [readRecords_cons _ (stamp_wellFormed r (hwf r (by simp)) l0 (by simp at hbound; omega)) _]
    rw [ih (l0 + 1) (fun x hx => hwf x (List.mem_cons_of_mem _ hx))
      (by simp at hbound ⊢; omega)]
    simp

/-- A strict truncation of a record's byte image parses as no record. -/
theorem readRecords_partial (w : WalRecord) (wf : wellFormed w) (k : Nat)
    (hk1 : 0 < k) (hk2 : k ≤ w.serializeRec.length) :
    readRecords (w.serializeRec.take (w.serializeRec.length - k)) = [] := by
  have hserlen := serializeRec_length w
  set n := w.serializeRec.length - k with hn
  have hnlt : n < w.serializeRec.length := by omega
  have hlen : (w.serializeRec.take n).length = n := by
    rw [List.length_take]; omega
  by_cases h32 : n < 32
  · rw [readRecords, if_pos (by rw [hlen]; exact h32)]
  · -- header intact: the length field reads back, but the payload is short
    have hfld : rdLE (((w.serializeRec.take n).drop 8).take 4) =
        w.header.length := by
      have base := rdLE_len_ser w wf []
      rw [List.append_nil] at base
      rw [List.drop_take, List.take_take]
      have : min 4 (n - 8) = 4 := by omega
      rw [this]
      exact base
    obtain ⟨hL, hC, hlsn, hlenB, hty, htab, hpg, hslot⟩ := wf
    rw [readRecords, if_neg (by omega), hfld, if_neg (by omega),
      if_pos (by rw [hlen]; omega)]

/-- All records stamped from `l0 ≥ 1` have LSN `≥ 1`, so the
`read_from(1)` filter keeps them all. -/
theorem stampedList_filter (rs : List WalRecord) (l0 : Nat) (h1 : 1 ≤ l0) :
    (stampedList l0 rs).filter (fun r => 1 ≤ r.header.lsn) = stampedList l0 rs := by
  induction rs generalizing l0 with
  | nil => rfl
  | cons r rest ih =>
    rw [stampedList, List.filter_cons]
    rw [if_pos (by simpa [stamp] using h1), ih _ (by omega)]

theorem serConcat_append (xs ys : List WalRecord) (l0 : Nat) :
    serConcat l0 (xs ++ ys) = serConcat l0 xs ++ serConcat (l0 + xs.length) ys := by
  induction xs generalizing l0 with
  | nil => simp [serConcat]
  | cons x rest ih =>
    rw [List.cons_append, serConcat, serConcat, ih (l0 + 1), List.append_assoc,
      List.length_cons]
    have : l0 + 1 + rest.length = l0 + (rest.length + 1) := by omega
    rw [this]

/-- C4: for every (consistent) WAL record, `deserialize ∘ serialize` is the
identity; replaying the byte stream written by a sequence of `append`s
yields exactly the appended (LSN-stamped) records in order; and truncating
the last `k` bytes of the stream, for `0 < k` up to the size of the last
record, yields every record except the truncated last one — the scan stops
cleanly rather than failing. -/
theorem c4_wal_roundtrip_replay_truncation :
    (∀ r : WalRecord, wellFormed r → deserialize r.serializeRec = some r) ∧
    (∀ (l0 : Nat) (rs : List WalRecord),
      (∀ r ∈ rs, prewf r) → 1 ≤ l0 →
      l0 + rs.length ≤ 18446744073709551616 →
      readFrom 1 (walAppendAll ⟨l0, []⟩ rs) = stampedList l0 rs) ∧
    (∀ (l0 : Nat) (first : List WalRecord) (lastRec : WalRecord) (k : Nat),
      (∀ r ∈ first ++ [lastRec], prewf r) → 1 ≤ l0 →
      l0 + (first ++ [lastRec]).length ≤ 18446744073709551616 →
      0 < k → k ≤ 32 + lastRec.payload.length →
      (let st := walAppendAll ⟨l0, []⟩ (first ++ [lastRec])
       readFrom 1 ⟨st.currentLsn, st.data.take (st.data.length - k)⟩ =
         stampedList l0 first)) := by
  refine ⟨?_, ?_, ?_⟩
  · intro r wf
    have := deserialize_serialize r wf []
    simpa using this
  · intro l0 rs hwf h1 hbound
    unfold readFrom
    rw [walAppendAll_data, List.nil_append]
    have := readRecords_serConcat rs l0 [] hwf hbound
    rw [List.append_nil] at this
    rw [this, readRecords_nil, List.append_nil]
    exact stampedList_filter rs l0 h1
  · intro l0 first lastRec k hwf h1 hbound hk1 hk2
    have hwfF : ∀ r ∈ first, prewf r :=
      fun r hr => hwf r (by simp [hr])
    have hwfL : prewf lastRec := hwf lastRec (by simp)
    have hlsnL : l0 + first.length < 18446744073709551616 := by
      simp at hbound; omega
    have wfS : wellFormed (stamp (l0 + first.length) lastRec) :=
      stamp_wellFormed lastRec hwfL _ (by omega)
    have hdata : (walAppendAll ⟨l0, []⟩ (first ++ [lastRec])).data =
        serConcat l0 first ++ (stamp (l0 + first.length) lastRec).serializeRec := by
      rw [walAppendAll_data, List.nil_append, serConcat_append]
      simp [serConcat]
    have hserlen : (stamp (l0 + first.length) lastRec).serializeRec.length =
        32 + lastRec.payload.length := by
      rw [serializeRec_length]; rfl
    show readFrom 1 ⟨_, ((walAppendAll ⟨l0, []⟩ (first ++ [lastRec])).data.take
      ((walAppendAll ⟨l0, []⟩ (first ++ [lastRec])).data.length - k))⟩ = _
    unfold readFrom
    simp only [hdata]
    rw [List.length_append, hserlen]
    have htake :
        (serConcat l0 first ++ (stamp (l0 + first.length) lastRec).serializeRec).take
          ((serConcat l0 first).length + (32 + lastRec.payload.length) - k) =
        serConcat l0 first ++ (stamp (l0 + first.length) lastRec).serializeRec.take
          ((stamp (l0 + first.length) lastRec).serializeRec.length - k) := by
      rw [List.take_append_eq_append_take, List.take_of_length_le (by omega)]
      congr 2
      rw [hserlen]
      omega
    rw [htake, readRecords_serConcat first l0 _ hwfF (by omega),
      readRecords_partial _ wfS k hk1 (by rw [hserlen]; omega), List.append_nil]
    exact stampedList_filter first l0 h1

/-- Concrete records for the C4 witness (header LSN/length/CRC are
arbitrary; `append` stamps them). -/
def wrecA : WalRecord := ⟨⟨0, 0, 0, WAL_INSERT, 1, 0, 0⟩, [10, 20]⟩
def wrecB : WalRecord := ⟨⟨0, 0, 0, WAL_UPDATE, 1, 0, 1⟩, [33]⟩

theorem c4_witness :
    deserialize (stamp 5 wrecA).serializeRec = some (stamp 5 wrecA) ∧
    readFrom 1 (walAppendAll ⟨1, []⟩ [wrecA, wrecB]) = stampedList 1 [wrecA, wrecB] ∧
    (let st := walAppendAll ⟨1, []⟩ ([wrecA] ++ [wrecB])
     readFrom 1 ⟨st.currentLsn, st.data.take (st.data.length - 1)⟩ =
       stampedList 1 [wrecA]) := by
  obtain ⟨p1, p2, p3⟩ := c4_wal_roundtrip_replay_truncation
  refine ⟨p1 _ ?_, p2 1 [wrecA, wrecB] ?_ ?_ ?_, p3 1 [wrecA] wrecB 1 ?_ ?_ ?_ ?_ ?_⟩
  · decide
  · decide
  · decide
  · decide
  · decide
  · decide
  · decide
  · decide
  · decide

/-! ## Slotted pages (`page.hpp` / `page_manager.cpp`)

A `Page` is 8192 bytes: a 24-byte header, a slot directory of 4-byte
entries growing up, and a record region growing down.  The model keeps the
header fields and, for each directory entry, the bytes `get_record` would
return (the first `length` bytes at `offset`); raw free-region bytes carry
no information.  `slot_count` is the directory length. -/

def PAGE_SIZE : Nat := 8192
def PAGE_HEADER_SIZE : Nat := 24
def SLOT_ENTRY_BYTES : Nat := 4

/-- A slot directory entry together with the record bytes it addresses. -/
structure Slot where
  offset : Nat        -- uint16_t
  length : Nat        -- uint16_t
  data : List Nat     -- the `length` bytes at `offset`
  deriving DecidableEq, Repr

def Slot.is_empty (s : Slot) : Bool := s.offset = 0 && s.length = 0
def Slot.is_deleted (s : Slot) : Bool := s.offset = 65535

/-- `SlotEntry::mark_deleted()`: `offset = 0xFFFF, length = 0`. -/
def Slot.mark_deleted : Slot := { offset := 65535, length := 0, data := [] }

structure Page where
  pageId : Nat
  lsn : Nat
  freeSpace : Nat     -- uint16_t
  dataStart : Nat     -- uint16_t
  flags : Nat         -- uint16_t
  slots : List Slot
  deriving DecidableEq, Repr

def FLAG_LEAF : Nat := 1
def FLAG_DIRTY : Nat := 8

/-- `Page::init(page_id, flags)`. -/
def Page.init (pageId : Nat) (flags : Nat := FLAG_LEAF) : Page :=
  { pageId := pageId, lsn := 0, freeSpace := PAGE_SIZE - PAGE_HEADER_SIZE
    dataStart := PAGE_SIZE, flags := flags, slots := [] }

def Page.slot_count (p : Page) : Nat := p.slots.length

/-- `Page::slot_directory_end()`. -/
def Page.slot_directory_end (p : Page) : Nat := 24 + p.slots.length * 4

/-- `Page::get_record(slot, …)`: some record bytes iff the slot index is in
the directory and the entry is neither empty nor deleted. -/
def Page.get_record (p : Page) (i : Nat) : Option (List Nat) :=
  match p.slots[i]? with
  | none => none
  | some s => if s.is_empty || s.is_deleted then none else some s.data

/-- `uint16_t` subtraction (`data_start - length` wraps modulo 2^16). -/
def sub16 (a b : Nat) : Nat := (a + 65536 - b % 65536) % 65536

/-- `Page::insert_record`: requires `free_space ≥ length + 4`, places the
record at `data_start - length`, rejects collision with the extended slot
directory, appends a directory entry and updates the header. -/
def Page.insert_record (p : Page) (data : List Nat) : Option (Page × Nat) :=
  if p.freeSpace < data.length + 4 then none
  else if sub16 p.dataStart data.length < p.slot_directory_end + 4 then none
  else
    some ({ p with
      slots := p.slots ++
        [{ offset := sub16 p.dataStart data.length, length := data.length, data := data }]
      dataStart := sub16 p.dataStart data.length
      freeSpace := p.freeSpace - (data.length + 4)
      flags := p.flags ||| FLAG_DIRTY }, p.slots.length)

/-- `Page::delete_record`: tombstones the slot; does not reclaim space. -/
def Page.delete_record (p : Page) (i : Nat) : Option Page :=
  match p.slots[i]? with
  | none => none
  | some s =>
    if s.is_empty || s.is_deleted then none
    else some { p with slots := p.slots.set i Slot.mark_deleted,
                       flags := p.flags ||| FLAG_DIRTY }

/-- `Page::update_record`: in-place only (`length ≤ existing.length`);
overwrites the record bytes and shrinks the slot length. -/
def Page.update_record (p : Page) (i : Nat) (data : List Nat) : Option Page :=
  match p.slots[i]? with
  | none => none
  | some s =>
    if s.is_empty || s.is_deleted then none
    else if data.length > s.length then none
    else some { p with
      slots := p.slots.set i { offset := s.offset, length := data.length, data := data },
      flags := p.flags ||| FLAG_DIRTY }

/-- Sum of the lengths of the live (non-empty, non-deleted) records. -/
def Page.liveSum (p : Page) : Nat :=
  (p.slots.map (fun s => if s.is_empty || s.is_deleted then 0 else s.length)).sum

/-! Sequences of page mutations, for the round-trip property. -/

inductive PageOp where
  | ins (data : List Nat)
  | del (slot : Nat)
  | upd (slot : Nat) (data : List Nat)
  deriving DecidableEq, Repr

def PageOp.isIns : PageOp → Bool
  | .ins _ => true
  | _ => false

def applyOp (p : Page) : PageOp → Option Page
  | .ins d => (p.insert_record d).map Prod.fst
  | .del i => p.delete_record i
  | .upd i d => p.update_record i d

/-- Apply a sequence of operations; `some` iff the page accepts all. -/
def applyOps (p : Page) : List PageOp → Option Page
  | [] => some p
  | op :: rest => (applyOp p op).bind (fun q => applyOps q rest)

/-- Modelled from the spec: the contents each slot should have after a
sequence of accepted operations — the last successful write to the slot,
or `none` once deleted.  This is the specification-side mirror that
`get_record` is compared against. -/
def specApplyOp (l : List (Option (List Nat))) : PageOp → List (Option (List Nat))
  | .ins d => l ++ [some d]
  | .del i => l.set i none
  | .upd i d => l.set i (some d)

def specSlotContents (ops : List PageOp) : List (Option (List Nat)) :=
  ops.foldl specApplyOp []

/-- Structural page invariant maintained by the mutating operations:
exact free-space accounting against the header, `data_start` within the
page, and every directory entry either tombstoned or pointing into the
page body. -/
def PageWf (p : Page) : Prop :=
  p.freeSpace + 24 + 4 * p.slots.length = p.dataStart ∧
  p.dataStart ≤ 8192 ∧
  ∀ s ∈ p.slots, s.offset = 65535 ∨ (1 ≤ s.offset ∧ s.offset ≤ 8192)

/-- Relation between a page and the specification-side slot contents. -/
def PageRel (p : Page) (l : List (Option (List Nat))) : Prop :=
  p.slots.length = l.length ∧ ∀ i, p.get_record i = (l[i]?).join

theorem sub16_eq (a b : Nat) (hb : b ≤ a) (ha : a < 65536) : sub16 a b = a - b := by
  unfold sub16; omega

theorem pageInit_wf (pid : Nat) : PageWf (Page.init pid) := by
  refine ⟨rfl, by norm_num [Page.init, PAGE_SIZE], ?_⟩
  intro s hs
  simp [Page.init] at hs

theorem pageInit_rel (pid : Nat) : PageRel (Page.init pid) [] := by
  refine ⟨rfl, ?_⟩
  intro i
  simp [Page.init, Page.get_record]

theorem applyOp_step (p : Page) (l : List (Option (List Nat))) (op : PageOp) (p' : Page)
    (hw : PageWf p) (hr : PageRel p l) (h : applyOp p op = some p') :
    PageWf p' ∧ PageRel p' (specApplyOp l op) := by
  obtain ⟨hw1, hw2, hw3⟩ := hw
  obtain ⟨hr1, hr2⟩ := hr
  cases op with
  | ins data =>
    simp only [applyOp] at h
    unfold Page.insert_record at h
    by_cases h1 : p.freeSpace < data.length + 4
    · rw [if_pos h1] at h; simp at h
    · rw [if_neg h1] at h
      by_cases h2 : sub16 p.dataStart data.length < p.slot_directory_end + 4
      · rw [if_pos h2] at h; simp at h
      · rw [if_neg h2] at h
        simp at h
        subst h
        have hlen : data.length + 28 + 4 * p.slots.length ≤ p.dataStart := by omega
        have hsub : sub16 p.dataStart data.length = p.dataStart - data.length :=
          sub16_eq _ _ (by omega) (by omega)
        unfold Page.slot_directory_end at h2
        rw [hsub] at h2 ⊢
        constructor
        · refine ⟨by simp; omega, by simp; omega, ?_⟩
          intro s hs
          simp at hs
          rcases hs with hs | hs
          · exact hw3 s hs
          · subst hs; right; constructor <;> simp <;> omega
        · constructor
          · simp [specApplyOp, hr1]
          · intro i
            rcases lt_trichotomy i p.slots.length with hi | hi | hi
            · show Page.get_record _ i = _
              unfold Page.get_record
              simp only [specApplyOp]
              rw [List.getElem?_append, if_pos hi,
                List.getElem?_append, if_pos (by omega)]
              exact hr2 i
            · show Page.get_record _ i = _
              unfold Page.get_record
              simp only [specApplyOp]
              subst hi
              rw [show p.slots.length = p.slots.length + 0 from rfl]
              rw [List.getElem?_append_right (by omega), hr1,
                List.getElem?_append_right (by omega)]
              simp [Slot.is_empty, Slot.is_deleted]
              omega
            · show Page.get_record _ i = _
              unfold Page.get_record
              simp only [specApplyOp]
              rw [List.getElem?_eq_none (by simp; omega),
                List.getElem?_eq_none (by simp; omega)]
              rfl
  | del i =>
    simp only [applyOp] at h
    unfold Page.delete_record at h
    cases hg : p.slots[i]? with
    | none => rw [hg] at h; cases h
    | some s =>
      rw [hg] at h
      dsimp only [] at h
      by_cases hl : s.is_empty || s.is_deleted
      · rw [if_pos hl] at h; cases h
      · rw [if_neg hl] at h
        simp only [Option.some.injEq] at h
        subst h
        have hi : i < p.slots.length := by
          by_contra hc
          rw [List.getElem?_eq_none (by omega)] at hg
          cases hg
        constructor
        · refine ⟨by simp; omega, by simpa using hw2, ?_⟩
          intro t ht
          rcases List.mem_or_eq_of_mem_set ht with ht | ht
          · exact hw3 t ht
          · subst ht; left; rfl
        · constructor
          · simp [specApplyOp, hr1]
          · intro j
            by_cases hj : j = i
            · subst hj
              show Page.get_record _ j = _
              unfold Page.get_record
              simp only [specApplyOp]
              rw [List.getElem?_set_self (by omega), List.getElem?_set_self (by omega)]
              simp [Slot.mark_deleted, Slot.is_deleted]
            · show Page.get_record _ j = _
              unfold Page.get_record
              simp only [specApplyOp]
              rw [List.getElem?_set_ne (by omega), List.getElem?_set_ne (by omega)]
              exact hr2 j
  | upd i data =>
    simp only [applyOp] at h
    unfold Page.update_record at h
    cases hg : p.slots[i]? with
    | none => rw [hg] at h; cases h
    | some s =>
      rw [hg] at h
      dsimp only [] at h
      by_cases hl : s.is_empty || s.is_deleted
      · rw [if_pos hl] at h; cases h
      · rw [if_neg hl] at h
        by_cases hlen : data.length > s.length
        · rw [if_pos hlen] at h; cases h
        · rw [if_neg hlen] at h
          simp only [Option.some.injEq] at h
          subst h
          have hi : i < p.slots.length := by
            by_contra hc
            rw [List.getElem?_eq_none (by omega)] at hg
            cases hg
          have hsmem : s ∈ p.slots := List.getElem?_mem hg
          have hoff : 1 ≤ s.offset ∧ s.offset ≤ 8192 := by
            rcases hw3 s hsmem with hd | hd
            · exfalso; simp [Slot.is_deleted, hd] at hl
            · exact hd
          constructor
          · refine ⟨by simp; omega, by simpa using hw2, ?_⟩
            intro t ht
            rcases List.mem_or_eq_of_mem_set ht with ht | ht
            · exact hw3 t ht
            · subst ht; right; exact hoff
          · constructor
            · simp [specApplyOp, hr1]
            · intro j
              by_cases hj : j = i
              · subst hj
                show Page.get_record _ j = _
                unfold Page.get_record
                simp only [specApplyOp]
                rw [List.getElem?_set_self (by omega), List.getElem?_set_self (by omega)]
                simp [Slot.is_empty, Slot.is_deleted]
                omega
              · show Page.get_record _ j = _
                unfold Page.get_record
                simp only [specApplyOp]
                rw [List.getElem?_set_ne (by omega), List.getElem?_set_ne (by omega)]
                exact hr2 j

theorem applyOps_invariant (ops : List PageOp) :
    ∀ (p : Page) (l : List (Option (List Nat))) (p' : Page),
      PageWf p → PageRel p l → applyOps p ops = some p' →
      PageWf p' ∧ PageRel p' (ops.foldl specApplyOp l) := by
  induction ops with
  | nil =>
    intro p l p' hw hr h
    simp only [applyOps, Option.some.injEq] at h
    subst h
    exact ⟨hw, hr⟩
  | cons op rest ih =>
    intro p l p' hw hr h
    unfold applyOps at h
    cases hop : applyOp p op with
    | none => rw [hop] at h; cases h
    | some q =>
      rw [hop] at h
      dsimp only [Option.bind] at h
      obtain ⟨hw', hr'⟩ := applyOp_step p l op q hw hr hop
      exact ih q (specApplyOp l op) p' hw' hr' h

/-- The "live sum" accounting identity the specification claims. -/
def InvLive (p : Page) : Prop :=
  p.freeSpace + p.liveSum + p.slots.length * 4 + 24 = 8192

instance (p : Page) : Decidable (InvLive p) := by
  unfold InvLive; infer_instance

theorem insert_step_live (p : Page) (data : List Nat) (p' : Page) (idx : Nat)
    (hw : PageWf p) (hl : InvLive p) (h : p.insert_record data = some (p', idx)) :
    PageWf p' ∧ InvLive p' := by
  obtain ⟨hw1, hw2, hw3⟩ := hw
  unfold Page.insert_record at h
  by_cases h1 : p.freeSpace < data.length + 4
  · rw [if_pos h1] at h; cases h
  · rw [if_neg h1] at h
    by_cases h2 : sub16 p.dataStart data.length < p.slot_directory_end + 4
    · rw [if_pos h2] at h; cases h
    · rw [if_neg h2] at h
      simp only [Option.some.injEq, Prod.mk.injEq] at h
      obtain ⟨hp, _⟩ := h
      subst hp
      have hsub : sub16 p.dataStart data.length = p.dataStart - data.length :=
        sub16_eq _ _ (by omega) (by omega)
      unfold Page.slot_directory_end at h2
      rw [hsub] at h2
      constructor
      · refine ⟨by simp; omega, by simp; omega, ?_⟩
        intro s hs
        simp at hs
        rcases hs with hs | hs
        · exact hw3 s hs
        · subst hs; right; constructor <;> simp [hsub] <;> omega
      unfold InvLive Page.liveSum at hl ⊢
      simp only [List.map_append, List.map_cons, List.map_nil, List.sum_append,
        List.length_append, List.length_cons, List.length_nil, List.sum_cons,
        List.sum_nil]
      have hlive : ¬(Slot.is_empty
            { offset := sub16 p.dataStart data.length, length := data.length, data := data } ||
          Slot.is_deleted
            { offset := sub16 p.dataStart data.length, length := data.length, data := data }) = true := by
        simp [Slot.is_empty, Slot.is_deleted, hsub]
        omega
      rw [if_neg hlive]
      omega

theorem applyOps_insert_only (ops : List PageOp) :
    ∀ (p p' : Page), PageWf p → InvLive p → (∀ op ∈ ops, op.isIns) →
      applyOps p ops = some p' → InvLive p' := by
  induction ops with
  | nil =>
    intro p p' hw hl _ h
    simp only [applyOps, Option.some.injEq] at h
    subst h
    exact hl
  | cons op rest ih =>
    intro p p' hw hl hins h
    unfold applyOps at h
    cases hop : applyOp p op with
    | none => rw [hop] at h; cases h
    | some q =>
      rw [hop] at h
      dsimp only [Option.bind] at h
      have hq : PageWf q ∧ InvLive q := by
        have hOpIns := hins op (by simp)
        cases op with
        | ins data =>
          simp only [applyOp] at hop
          cases hir : p.insert_record data with
          | none => rw [hir] at hop; cases hop
          | some pr =>
            rw [hir] at hop
            simp only [Option.map_some'] at hop
            cases hop
            exact insert_step_live p data pr.1 pr.2 hw hl (by rw [hir])
        | del i => simp [PageOp.isIns] at hOpIns
        | upd i data => simp [PageOp.isIns] at hOpIns
      exact ih q p' hq.1 hq.2 (fun o ho => hins o (by simp [ho])) h

/-- Operation sequence refuting the live-sum accounting identity: insert a
10-byte record, then delete it.  `delete_record` does not restore
`free_space`, so the claimed identity drops by the record length. -/
def c5ops : List PageOp := [.ins [1, 2, 3, 4, 5, 6, 7, 8, 9, 10], .del 0]

/-- C5 counterexample: the page accepts `c5ops`, after which
`free_space + Σ live_record_lengths + slot_count·4 + header_size = 8182`,
not `PAGE_SIZE = 8192`: the claimed accounting identity is violated by a
delete (space is tombstoned, not reclaimed). -/
theorem c5_counterexample :
    (applyOps (Page.init 0) c5ops).map
        (fun p => p.freeSpace + p.liveSum + p.slots.length * 4 + 24) = some 8182 ∧
    (8182 : Nat) ≠ 8192 := by
  constructor
  · decide
  · decide

/-- C5 (amended): for every operation sequence accepted from a fresh page,
`get_record` reproduces the last successful write to each slot and deleted
slots read back as failure; the exact free-space accounting is
`free_space + header_size + slot_count·4 = data_start`; the claimed
live-sum identity `free_space + Σ live_record_lengths + slot_count·4 +
header_size = PAGE_SIZE` holds for insert-only sequences (deletes and
shrinking updates remove live bytes without restoring `free_space`). -/
theorem c5_page_readback_and_accounting (ops : List PageOp) (p' : Page)
    (h : applyOps (Page.init 0) ops = some p') :
    (∀ i, p'.get_record i = ((specSlotContents ops)[i]?).join) ∧
    p'.freeSpace + 24 + 4 * p'.slots.length = p'.dataStart ∧
    ((∀ op ∈ ops, op.isIns) →
      p'.freeSpace + p'.liveSum + p'.slots.length * 4 + 24 = 8192) := by
  obtain ⟨hw', hr'⟩ :=
    applyOps_invariant ops (Page.init 0) [] p' (pageInit_wf 0) (pageInit_rel 0) h
  refine ⟨hr'.2, hw'.1, ?_⟩
  intro hins
  exact applyOps_insert_only ops (Page.init 0) p' (pageInit_wf 0) (by decide) hins h

/-- Concrete inputs for the C5 witness. -/
def c5wops : List PageOp := [.ins [5, 6], .ins [7]]
def c5wpage : Page := ((applyOps (Page.init 0) c5wops).getD (Page.init 0))

theorem c5_witness :
    (∀ i, c5wpage.get_record i = ((specSlotContents c5wops)[i]?).join) ∧
    c5wpage.freeSpace + 24 + 4 * c5wpage.slots.length = c5wpage.dataStart ∧
    c5wpage.freeSpace + c5wpage.liveSum + c5wpage.slots.length * 4 + 24 = 8192 := by
  have h := c5_page_readback_and_accounting c5wops c5wpage (by decide)
  exact ⟨h.1, h.2.1, h.2.2 (by decide)⟩

/-! ## Recovery (`recovery.cpp`)

`RecoveryManager::apply_insert / apply_update / apply_delete` as they act
on the resolved target page.  The records of a crash-consistent prefix all
address the same `(table_id, page_id)` here; page resolution through the
buffer pool is the identity on the already-resident page.  On a failed
page operation the apply functions log and leave the page unchanged, and
`apply_record` counts an error but recovery continues. -/

/-- `RecoveryManager::apply_insert`: skip if the record's slot already
holds a live record (idempotency check), otherwise insert the payload and
stamp the page LSN. -/
def applyInsertRec (p : Page) (r : WalRecord) : Page :=
  if r.header.slotId < p.slot_count && (p.get_record r.header.slotId).isSome then p
  else
    match p.insert_record r.payload with
    | none => p
    | some (p', _) => { p' with lsn := r.header.lsn }

/-- `RecoveryManager::apply_update`: skip under the LSN guard
(`page.header.lsn ≥ r.lsn`), otherwise update in place and stamp. -/
def applyUpdateRec (p : Page) (r : WalRecord) : Page :=
  if r.header.lsn ≤ p.lsn then p
  else
    match p.update_record r.header.slotId r.payload with
    | none => p
    | some p' => { p' with lsn := r.header.lsn }

/-- `RecoveryManager::apply_delete`: skip under the LSN guard, otherwise
tombstone the slot and stamp (an already-deleted slot counts as skipped). -/
def applyDeleteRec (p : Page) (r : WalRecord) : Page :=
  if r.header.lsn ≤ p.lsn then p
  else
    match p.delete_record r.header.slotId with
    | none => p
    | some p' => { p' with lsn := r.header.lsn }

/-- `RecoveryManager::apply_record`: dispatch on the record type;
`CREATE_TABLE/DROP_TABLE/COMMIT/ROLLBACK` and unknown types leave pages
untouched. -/
def applyRecordRec (p : Page) (r : WalRecord) : Page :=
  if r.header.type = WAL_INSERT then applyInsertRec p r
  else if r.header.type = WAL_UPDATE then applyUpdateRec p r
  else if r.header.type = WAL_DELETE then applyDeleteRec p r
  else p

/-- One `RecoveryManager::recover` pass over a record list (the scan of
`read_from(start_lsn)`); `CHECKPOINT` records are skipped before dispatch. -/
def recoverPass (p : Page) (rs : List WalRecord) : Page :=
  rs.foldl (fun q r => if r.header.type = WAL_CHECKPOINT then q else applyRecordRec q r) p

/-- An INSERT record (LSN 1) for slot 0 followed by a DELETE (LSN 2) of
that slot: a perfectly crash-consistent prefix. -/
def c3insRec : WalRecord := ⟨⟨1, 0, 0, WAL_INSERT, 1, 0, 0⟩, [42]⟩
def c3delRec : WalRecord := ⟨⟨2, 0, 0, WAL_DELETE, 1, 0, 0⟩, []⟩
def c3prefix : List WalRecord := [c3insRec, c3delRec]

/-- C3 counterexample: after `recover` of an insert-then-delete prefix the
inserted slot is tombstoned, so on a second pass the INSERT's idempotency
check (`get_record` live?) fails and the record is re-inserted into a new
slot — double recovery does not equal single recovery. -/
theorem c3_counterexample :
    recoverPass (recoverPass (Page.init 0) c3prefix) c3prefix ≠
      recoverPass (Page.init 0) c3prefix := by
  decide

/-- C3 (amended): replaying a prefix a second time is a no-op — every
INSERT skipped because its slot holds a live record, every UPDATE/DELETE
skipped by the LSN guard — provided that after the first pass each INSERT
record's slot is indeed still live and the page LSN dominates every
UPDATE/DELETE LSN.  These provisos hold for ordinary prefixes but fail,
e.g., when a later record deletes an inserted slot (see the
counterexample). -/
theorem c3_recovery_idempotent (p0 : Page) (rs : List WalRecord)
    (hIns : ∀ r ∈ rs, r.header.type = WAL_INSERT →
      ((recoverPass p0 rs).get_record r.header.slotId).isSome)
    (hGuard : ∀ r ∈ rs, r.header.type = WAL_UPDATE ∨ r.header.type = WAL_DELETE →
      r.header.lsn ≤ (recoverPass p0 rs).lsn) :
    recoverPass (recoverPass p0 rs) rs = recoverPass p0 rs := by
  have general : ∀ (q : Page) (l : List WalRecord),
      (∀ r ∈ l, r.header.type = WAL_INSERT → (q.get_record r.header.slotId).isSome) →
      (∀ r ∈ l, r.header.type = WAL_UPDATE ∨ r.header.type = WAL_DELETE →
        r.header.lsn ≤ q.lsn) →
      recoverPass q l = q := by
    intro q l
    induction l with
    | nil => intro _ _; rfl
    | cons r rest ih =>
      intro h1 h2
      show recoverPass (if r.header.type = WAL_CHECKPOINT then q else applyRecordRec q r)
        rest = q
      have hstep : (if r.header.type = WAL_CHECKPOINT then q else applyRecordRec q r) = q := by
        by_cases hck : r.header.type = WAL_CHECKPOINT
        · rw [if_pos hck]
        · rw [if_neg hck]
          unfold applyRecordRec
          by_cases hins : r.header.type = WAL_INSERT
          · rw [if_pos hins]
            unfold applyInsertRec
            have hlive := h1 r (by simp) hins
            have hslot : r.header.slotId < q.slot_count := by
              unfold Page.get_record at hlive
              cases hget : q.slots[r.header.slotId]? with
              | none => rw [hget] at hlive; simp at hlive
              | some s =>
                have := List.getElem?_mem hget
                unfold Page.slot_count
                by_contra hc
                rw [List.getElem?_eq_none (by omega)] at hget
                cases hget
            rw [if_pos (by simp [hslot, hlive])]
          · rw [if_neg hins]
            by_cases hupd : r.header.type = WAL_UPDATE
            · rw [if_pos hupd]
              unfold applyUpdateRec
              rw [if_pos (h2 r (by simp) (Or.inl hupd))]
            · rw [if_neg hupd]
              by_cases hdel : r.header.type = WAL_DELETE
              · rw [if_pos hdel]
                unfold applyDeleteRec
                rw [if_pos (h2 r (by simp) (Or.inr hdel))]
              · rw [if_neg hdel]
      rw [hstep]
      exact ih (fun x hx ht => h1 x (by simp [hx]) ht)
        (fun x hx ht => h2 x (by simp [hx]) ht)
  exact general (recoverPass p0 rs) rs hIns hGuard

/-- Concrete prefix for the C3 witness: insert then in-place update of the
same slot; both provisos hold and double recovery is a no-op. -/
def c3wIns : WalRecord := ⟨⟨1, 0, 0, WAL_INSERT, 1, 0, 0⟩, [7, 8]⟩
def c3wUpd : WalRecord := ⟨⟨2, 0, 0, WAL_UPDATE, 1, 0, 0⟩, [9]⟩
def c3wprefix : List WalRecord := [c3wIns, c3wUpd]

theorem c3_witness :
    recoverPass (recoverPass (Page.init 0) c3wprefix) c3wprefix =
      recoverPass (Page.init 0) c3wprefix :=
  c3_recovery_idempotent (Page.init 0) c3wprefix (by decide) (by decide)

/-! ## Query allocator and execution context
(`query_allocator.hpp`, `context.hpp` / `context.cpp`)

Wall-clock time is abstracted: `elapsed` holds the value of
`steady_clock::now() - start_time_` (in the same units as
`budget.max_time`) at the moment of the call being modelled. -/

structure QueryAllocator where
  memoryLimit : Nat   -- size_t memory_limit_
  bytesUsed : Nat     -- size_t bytes_used_
  deriving DecidableEq, Repr

/-- `QueryAllocator::would_exceed(size)`: `bytes_used_ + size > memory_limit_`. -/
def QueryAllocator.would_exceed (a : QueryAllocator) (size : Nat) : Bool :=
  a.bytesUsed + size > a.memoryLimit

structure QueryBudget where
  maxMemoryBytes : Nat
  maxInstructions : Nat
  maxTime : Nat
  maxResultRows : Nat
  deriving DecidableEq, Repr

structure ExecutionStats where
  instructionsExecuted : Nat
  rowsScanned : Nat
  rowsReturned : Nat
  memoryUsed : Nat
  elapsedTime : Nat
  deriving DecidableEq, Repr

def ExecutionStats.zero : ExecutionStats := ⟨0, 0, 0, 0, 0⟩

inductive BudgetViolation where
  | NONE | MEMORY_EXCEEDED | INSTRUCTIONS_EXCEEDED | TIMEOUT | ROWS_EXCEEDED | ABORTED
  deriving DecidableEq, Repr

structure ExecutionContext where
  budget : QueryBudget
  allocator : QueryAllocator
  stats : ExecutionStats
  elapsed : Nat            -- abstract current wall-clock elapsed time
  started : Bool
  aborted : Bool
  violation : BudgetViolation
  deriving DecidableEq, Repr

/-- `ExecutionContext::start()` (the time stamp is the `elapsed` origin). -/
def ExecutionContext.start (c : ExecutionContext) : ExecutionContext :=
  { c with started := true }

def ExecutionContext.record_instructions (c : ExecutionContext) (n : Nat) :
    ExecutionContext :=
  { c with stats :=
    { c.stats with instructionsExecuted := c.stats.instructionsExecuted + n } }

def ExecutionContext.record_row_scanned (c : ExecutionContext) : ExecutionContext :=
  { c with stats := { c.stats with rowsScanned := c.stats.rowsScanned + 1 } }

def ExecutionContext.record_row_returned (c : ExecutionContext) : ExecutionContext :=
  { c with stats := { c.stats with rowsReturned := c.stats.rowsReturned + 1 } }

/-- `ExecutionContext::check_time()`: a throw is `.error` carrying the
mutated context (violation tag recorded, elapsed stamped). -/
def ExecutionContext.check_time (c : ExecutionContext) :
    Except ExecutionContext ExecutionContext :=
  if !c.started then .ok c
  else if c.elapsed > c.budget.maxTime then
    .error { c with stats := { c.stats with elapsedTime := c.elapsed },
                    violation := .TIMEOUT }
  else .ok c

/-- `ExecutionContext::check_instructions()`. -/
def ExecutionContext.check_instructions (c : ExecutionContext) :
    Except ExecutionContext ExecutionContext :=
  if c.stats.instructionsExecuted ≥ c.budget.maxInstructions then
    .error { c with violation := .INSTRUCTIONS_EXCEEDED }
  else .ok c

/-- `ExecutionContext::check_rows()`. -/
def ExecutionContext.check_rows (c : ExecutionContext) :
    Except ExecutionContext ExecutionContext :=
  if c.stats.rowsReturned ≥ c.budget.maxResultRows then
    .error { c with violation := .ROWS_EXCEEDED }
  else .ok c

/-- `ExecutionContext::check_budget()`: aborted, then `check_time()`, then
`check_instructions()`, then `check_rows()` (each throw propagates), then
stamp `stats.memory_used` and test `allocator_.would_exceed(0)`. -/
def ExecutionContext.check_budget (c : ExecutionContext) :
    Except ExecutionContext ExecutionContext :=
  if c.aborted then .error { c with violation := .ABORTED }
  else
    match c.check_time with
    | .error e => .error e
    | .ok c1 =>
      match c1.check_instructions with
      | .error e => .error e
      | .ok c2 =>
        match c2.check_rows with
        | .error e => .error e
        | .ok c3 =>
          if c3.allocator.would_exceed 0 then
            .error { c3 with
              stats := { c3.stats with memoryUsed := c3.allocator.bytesUsed },
              violation := .MEMORY_EXCEEDED }
          else .ok { c3 with
            stats := { c3.stats with memoryUsed := c3.allocator.bytesUsed } }

/-- The violation a `check_budget` call signals (`none` = no throw). -/
def violationOf (r : Except ExecutionContext ExecutionContext) :
    Option BudgetViolation :=
  match r with
  | .ok _ => none
  | .error c => some c.violation

/-- Modelled from the spec: the first violation in the claimed order, with
the memory test exactly as the claim words it — `used + 0 ≥ cap`. -/
def specFirstViolationClaim (c : ExecutionContext) : Option BudgetViolation :=
  if c.aborted then some .ABORTED
  else if c.elapsed > c.budget.maxTime then some .TIMEOUT
  else if c.stats.instructionsExecuted ≥ c.budget.maxInstructions then
    some .INSTRUCTIONS_EXCEEDED
  else if c.stats.rowsReturned ≥ c.budget.maxResultRows then some .ROWS_EXCEEDED
  else if c.allocator.bytesUsed + 0 ≥ c.allocator.memoryLimit then
    some .MEMORY_EXCEEDED
  else none

/-- Modelled from the spec, amended: same order, but the memory test is
strict (`used + 0 > cap`), matching `would_exceed`. -/
def specFirstViolationStrict (c : ExecutionContext) : Option BudgetViolation :=
  if c.aborted then some .ABORTED
  else if c.elapsed > c.budget.maxTime then some .TIMEOUT
  else if c.stats.instructionsExecuted ≥ c.budget.maxInstructions then
    some .INSTRUCTIONS_EXCEEDED
  else if c.stats.rowsReturned ≥ c.budget.maxResultRows then some .ROWS_EXCEEDED
  else if c.allocator.bytesUsed + 0 > c.allocator.memoryLimit then
    some .MEMORY_EXCEEDED
  else none

/-- A context whose allocator sits exactly at its cap, with every other
budget dimension comfortable. -/
def c6ctx : ExecutionContext :=
  { budget := ⟨100, 1000, 1000, 1000⟩
    allocator := ⟨100, 100⟩
    stats := ExecutionStats.zero
    elapsed := 0, started := true, aborted := false, violation := .NONE }

/-- C6 counterexample: with `bytes_used` equal to the memory cap,
`check_budget` signals nothing (`would_exceed(0)` is strict `>`), while
the claim's `used + 0 ≥ cap` rule demands `MemoryExceeded`. -/
theorem c6_counterexample :
    violationOf c6ctx.check_budget = none ∧
    specFirstViolationClaim c6ctx = some .MEMORY_EXCEEDED := by
  constructor
  · decide
  · decide

/-- C6 (amended): for every started context, `check_budget` signals exactly
the first violation in the order aborted → Timeout → InstructionsExceeded →
RowsExceeded → MemoryExceeded, where the memory test is strict:
`allocator used + 0 > cap` (equality does NOT trigger). -/
theorem c6_check_budget_order (c : ExecutionContext) (hs : c.started = true) :
    violationOf c.check_budget = specFirstViolationStrict c := by
  unfold ExecutionContext.check_budget specFirstViolationStrict
    ExecutionContext.check_time ExecutionContext.check_instructions
    ExecutionContext.check_rows QueryAllocator.would_exceed
  rw [hs]
  by_cases ha : c.aborted
  · rw [if_pos ha, if_pos ha]; rfl
  · rw [if_neg ha, if_neg ha, if_neg (by decide : ¬((!true : Bool) = true))]
    by_cases ht : c.elapsed > c.budget.maxTime
    · rw [if_pos ht, if_pos ht]; rfl
    · rw [if_neg ht, if_neg ht]
      dsimp only []
      by_cases hi : c.stats.instructionsExecuted ≥ c.budget.maxInstructions
      · rw [if_pos hi, if_pos hi]; rfl
      · rw [if_neg hi, if_neg hi]
        dsimp only []
        by_cases hr : c.stats.rowsReturned ≥ c.budget.maxResultRows
        · rw [if_pos hr, if_pos hr]; rfl
        · rw [if_neg hr, if_neg hr]
          dsimp only []
          by_cases hm : c.allocator.bytesUsed + 0 > c.allocator.memoryLimit
          · rw [if_pos (by simpa using hm), if_pos hm]; rfl
          · rw [if_neg (by simpa using hm), if_neg hm]; rfl

theorem c6_witness :
    c6ctx.started = true ∧
    violationOf c6ctx.check_budget = specFirstViolationStrict c6ctx :=
  ⟨by decide, c6_check_budget_order c6ctx (by decide)⟩

/-! ## Executor (`executor.hpp` / `executor.cpp`)

`sql::Literal` values (the FLOAT payload is never inspected by any
modelled code path and is left abstract).  Rows are `ResultRow`s. -/

inductive Literal where
  | nullVal
  | integer (v : Int)
  | floatVal
  | stringVal (s : String)
  | boolean (b : Bool)
  deriving DecidableEq, Repr

structure ResultRow where
  values : List Literal
  deriving DecidableEq, Repr

/-- The comparator lambda inside `SortOperator::next` (`std::sort`'s `<`):
walk the `(sort_column, ascending)` pairs; skip a key when either row is
too short; order only pairs of INTEGER values, per-key direction;
everything else falls through to the next key; exhaustion means "not
less". -/
def sortLessAux : List (Nat × Bool) → ResultRow → ResultRow → Bool
  | [], _, _ => false
  | (col, asc) :: rest, a, b =>
    if col ≥ a.values.length || col ≥ b.values.length then sortLessAux rest a b
    else
      match a.values[col]?, b.values[col]? with
      | some (.integer x), some (.integer y) =>
        if x ≠ y then (if asc then decide (x < y) else decide (x > y))
        else sortLessAux rest a b
      | _, _ => sortLessAux rest a b

def sortLess (sortColumns : List Nat) (ascending : List Bool)
    (a b : ResultRow) : Bool :=
  sortLessAux (sortColumns.zip ascending) a b

/-- Insert a row before the first buffered row it compares less than. -/
def insertRow (sortColumns : List Nat) (ascending : List Bool)
    (r : ResultRow) : List ResultRow → List ResultRow
  | [] => [r]
  | x :: xs =>
    if sortLess sortColumns ascending r x then r :: x :: xs
    else x :: insertRow sortColumns ascending r xs

/-- The buffer sort (`std::sort(buffer_.begin(), buffer_.end(), cmp)`).
`std::sort` may produce any comparator-ordered permutation; this model
fixes one deterministic such permutation (a stable insertion sort).  No
settled claim depends on the order among comparator-equivalent rows. -/
def sortBuffer (sortColumns : List Nat) (ascending : List Bool)
    (buffer : List ResultRow) : List ResultRow :=
  buffer.foldr (insertRow sortColumns ascending) []

/-- Operator-tree state.  `tableScan` carries the rows its page/slot walk
will still yield (each decoded live record; per-page bookkeeping costs are
folded away); `limitOp` carries `limit_, offset_, skipped_, returned_`;
`sortOp` carries the sort spec, buffer and `materialized_` flag. -/
inductive Operator where
  | tableScan (pending : List ResultRow)
  | filter (child : Operator)
  | limitOp (limit offset skipped returned : Int) (child : Operator)
  | sortOp (sortColumns : List Nat) (ascending : List Bool)
      (buffer : List ResultRow) (materialized : Bool) (child : Operator)
  deriving DecidableEq, Repr

/-- `open(ctx)` down the tree: `TableScanOperator::open` records 10
instructions; the other operators only open their child. -/
def openOp : Operator → ExecutionContext → ExecutionContext
  | .tableScan _, c => c.record_instructions 10
  | .filter child, c => openOp child c
  | .limitOp _ _ _ _ child, c => openOp child c
  | .sortOp _ _ _ _ child, c => openOp child c

/-- Result of one `next(ctx, row)` call.  `out` is fuel exhaustion of the
model and never a program behaviour; `viol` is a budget exception
unwinding through the operator (the context carries the recorded tag). -/
inductive NextResult where
  | out
  | viol (c : ExecutionContext)
  | row (r : ResultRow) (op : Operator) (c : ExecutionContext)
  | done (op : Operator) (c : ExecutionContext)
  deriving DecidableEq, Repr

/-- `Operator::next`, fuelled (each child pull or internal loop iteration
consumes fuel).
* `TableScanOperator::next`: 1 instruction per call; each live record
  yields a row, counting `record_row_scanned` and 5 instructions.
* `FilterOperator::next`: pulls the child; `evaluate_predicate` is the
  always-true stub, so the first child row is returned after recording 5
  instructions.
* `LimitOperator::next`: skips `offset_` child rows (1 instruction each),
  returns `false` once `limit_ ≥ 0` and `returned_ ≥ limit_`, otherwise
  passes a child row through, bumping `returned_` and
  `record_row_returned`.
* `SortOperator::next`: on the first call drains the child into the
  buffer (2 instructions and a `check_budget` per row), sorts, records
  `10 · size` instructions, then streams the buffer. -/
def opNext : Nat → Operator → ExecutionContext → NextResult
  | 0, _, _ => .out
  | fuel + 1, op, c =>
    match op with
    | .tableScan pending =>
      let c1 := c.record_instructions 1
      match pending with
      | [] => .done (.tableScan []) c1
      | r :: rest =>
        .row r (.tableScan rest) ((c1.record_row_scanned).record_instructions 5)
    | .filter child =>
      match opNext fuel child c with
      | .out => .out
      | .viol c' => .viol c'
      | .done child' c' => .done (.filter child') c'
      | .row r child' c' => .row r (.filter child') (c'.record_instructions 5)
    | .limitOp lim off skipped returned child =>
      if skipped < off then
        match opNext fuel child c with
        | .out => .out
        | .viol c' => .viol c'
        | .done child' c' => .done (.limitOp lim off skipped returned child') c'
        | .row _ child' c' =>
          opNext fuel (.limitOp lim off (skipped + 1) returned child')
            (c'.record_instructions 1)
      else if 0 ≤ lim ∧ lim ≤ returned then .done op c
      else
        match opNext fuel child c with
        | .out => .out
        | .viol c' => .viol c'
        | .done child' c' => .done (.limitOp lim off skipped returned child') c'
        | .row r child' c' =>
          .row r (.limitOp lim off skipped (returned + 1) child')
            c'.record_row_returned
    | .sortOp cols asc buffer materialized child =>
      if materialized then
        match buffer with
        | [] => .done (.sortOp cols asc [] true child) c
        | r :: rest => .row r (.sortOp cols asc rest true child) c
      else
        match opNext fuel child c with
        | .out => .out
        | .viol c' => .viol c'
        | .row r child' c' =>
          let c2 := (c'.record_instructions 2)
          match c2.check_budget with
          | .error cv => .viol cv
          | .ok c3 => opNext fuel (.sortOp cols asc (buffer ++ [r]) false child') c3
        | .done child' c' =>
          opNext fuel
            (.sortOp cols asc (sortBuffer cols asc buffer) true child')
            (c'.record_instructions (buffer.length * 10))

/-- `ExecutionResult` (column names are not modelled; the error string is
replaced by the violation tag it reports, `NONE` when no budget error). -/
structure ExecResult where
  success : Bool
  errorTag : BudgetViolation
  rows : List ResultRow
  rowsAffected : Nat
  deriving DecidableEq, Repr

/-- The `while (op->next(ctx, row)) { rows.push_back; check_budget(); }`
loop of `Executor::execute_select`, with the `catch` of `execute`: a
budget exception discards the partial rows and produces a failed result
carrying the violation tag. -/
def execLoop : Nat → Operator → ExecutionContext → List ResultRow →
    Option (ExecResult × ExecutionContext)
  | 0, _, _, _ => none
  | fuel + 1, op, c, acc =>
    match opNext fuel op c with
    | .out => none
    | .viol c' =>
      some ({ success := false, errorTag := c'.violation, rows := [],
              rowsAffected := 0 }, c')
    | .done _ c' =>
      some ({ success := true, errorTag := .NONE, rows := acc,
              rowsAffected := 0 }, c')
    | .row r op' c' =>
      match c'.check_budget with
      | .error cv =>
        some ({ success := false, errorTag := cv.violation, rows := [],
                rowsAffected := 0 }, cv)
      | .ok c'' => execLoop fuel op' c'' (acc ++ [r])

/-- `Executor::execute_select` after `Executor::execute` has called
`ctx.start()`: open the tree, then drive the loop. -/
def executeSelect (fuel : Nat) (op : Operator) (c : ExecutionContext) :
    Option (ExecResult × ExecutionContext) :=
  execLoop fuel op (openOp op c.start) []

/-! Bookkeeping lemmas for the budget proofs. -/

theorem record_instructions_budget (c : ExecutionContext) (n : Nat) :
    (c.record_instructions n).budget = c.budget := rfl

theorem record_instructions_rows (c : ExecutionContext) (n : Nat) :
    (c.record_instructions n).stats.rowsReturned = c.stats.rowsReturned := rfl

theorem record_row_scanned_budget (c : ExecutionContext) :
    c.record_row_scanned.budget = c.budget := rfl

theorem record_row_scanned_rows (c : ExecutionContext) :
    c.record_row_scanned.stats.rowsReturned = c.stats.rowsReturned := rfl

theorem record_row_returned_budget (c : ExecutionContext) :
    c.record_row_returned.budget = c.budget := rfl

theorem record_row_returned_rows (c : ExecutionContext) :
    c.record_row_returned.stats.rowsReturned = c.stats.rowsReturned + 1 := rfl

theorem check_time_ok {c c' : ExecutionContext} (h : c.check_time = .ok c') :
    c' = c := by
  unfold ExecutionContext.check_time at h
  split at h
  · cases h; rfl
  · split at h
    · cases h
    · cases h; rfl

theorem check_time_error {c e : ExecutionContext} (h : c.check_time = .error e) :
    e.budget = c.budget ∧ e.stats.rowsReturned = c.stats.rowsReturned ∧
    e.violation = .TIMEOUT := by
  unfold ExecutionContext.check_time at h
  split at h
  · cases h
  · split at h
    · cases h
      exact ⟨rfl, rfl, rfl⟩
    · cases h

theorem check_instructions_ok {c c' : ExecutionContext}
    (h : c.check_instructions = .ok c') : c' = c := by
  unfold ExecutionContext.check_instructions at h
  split at h
  · cases h
  · cases h; rfl

theorem check_instructions_error {c e : ExecutionContext}
    (h : c.check_instructions = .error e) :
    e.budget = c.budget ∧ e.stats.rowsReturned = c.stats.rowsReturned ∧
    e.violation = .INSTRUCTIONS_EXCEEDED := by
  unfold ExecutionContext.check_instructions at h
  split at h
  · cases h
    exact ⟨rfl, rfl, rfl⟩
  · cases h

theorem check_rows_ok {c c' : ExecutionContext} (h : c.check_rows = .ok c') :
    c' = c ∧ c.stats.rowsReturned < c.budget.maxResultRows := by
  unfold ExecutionContext.check_rows at h
  split at h
  · cases h
  · cases h
    exact ⟨rfl, by omega⟩

theorem check_rows_error {c e : ExecutionContext} (h : c.check_rows = .error e) :
    e.budget = c.budget ∧ e.violation = .ROWS_EXCEEDED := by
  unfold ExecutionContext.check_rows at h
  split at h
  · cases h
    exact ⟨rfl, rfl⟩
  · cases h

theorem check_budget_ok (c c' : ExecutionContext) (h : c.check_budget = .ok c') :
    c'.budget = c.budget ∧ c'.stats.rowsReturned = c.stats.rowsReturned ∧
    c.stats.rowsReturned < c.budget.maxResultRows := by
  unfold ExecutionContext.check_budget at h
  split at h
  · cases h
  · split at h
    · cases h
    · next heqt =>
      split at h
      · cases h
      · next heqi =>
        split at h
        · cases h
        · next heqr =>
          have ht := check_time_ok heqt
          subst ht
          have hi := check_instructions_ok heqi
          subst hi
          obtain ⟨hr, hlt⟩ := check_rows_ok heqr
          subst hr
          split at h
          · cases h
          · cases h
            exact ⟨rfl, rfl, hlt⟩

theorem check_budget_error (c e : ExecutionContext)
    (h : c.check_budget = .error e) :
    e.budget = c.budget ∧ e.violation ≠ .NONE := by
  unfold ExecutionContext.check_budget at h
  split at h
  · cases h
    exact ⟨rfl, by simp⟩
  · split at h
    · next heqt =>
      cases h
      obtain ⟨hb, _, hv⟩ := check_time_error heqt
      exact ⟨hb, by rw [hv]; simp⟩
    · next heqt =>
      have ht := check_time_ok heqt
      subst ht
      split at h
      · next heqi =>
        cases h
        obtain ⟨hb, _, hv⟩ := check_instructions_error heqi
        exact ⟨hb, by rw [hv]; simp⟩
      · next heqi =>
        have hi := check_instructions_ok heqi
        subst hi
        split at h
        · next heqr =>
          cases h
          obtain ⟨hb, hv⟩ := check_rows_error heqr
          exact ⟨hb, by rw [hv]; simp⟩
        · next heqr =>
          obtain ⟨hr, _⟩ := check_rows_ok heqr
          subst hr
          split at h
          · cases h
            exact ⟨rfl, by simp⟩
          · cases h

/-- The context a `next` call hands back along its normal paths. -/
def ctxOf : NextResult → Option ExecutionContext
  | .row _ _ c => some c
  | .done _ c => some c
  | _ => none

/-- Along any completed `next` call the budget is untouched and
`rows_returned` never decreases. -/
theorem opNext_mono (fuel : Nat) : ∀ (op : Operator) (c c' : ExecutionContext),
    ctxOf (opNext fuel op c) = some c' →
    c'.budget = c.budget ∧ c.stats.rowsReturned ≤ c'.stats.rowsReturned := by
  induction fuel with
  | zero => intro op c c' h; simp [opNext, ctxOf] at h
  | succ fuel ih =>
    intro op c c' h
    cases op with
    | tableScan pending =>
      cases pending with
      | nil =>
        simp only [opNext, ctxOf, Option.some.injEq] at h
        subst h
        exact ⟨rfl, Nat.le_refl _⟩
      | cons r rest =>
        simp only [opNext, ctxOf, Option.some.injEq] at h
        subst h
        exact ⟨rfl, Nat.le_refl _⟩
    | filter child =>
      simp only [opNext] at h
      cases hch : opNext fuel child c with
      | out => rw [hch] at h; simp [ctxOf] at h
      | viol cv => rw [hch] at h; simp [ctxOf] at h
      | row r child' cc =>
        rw [hch] at h
        simp only [ctxOf, Option.some.injEq] at h
        subst h
        exact ih child c cc (by rw [hch]; rfl)
      | done child' cc =>
        rw [hch] at h
        simp only [ctxOf, Option.some.injEq] at h
        subst h
        exact ih child c cc (by rw [hch]; rfl)
    | limitOp lim off sk ret child =>
      simp only [opNext] at h
      by_cases hskip : sk < off
      · rw [if_pos hskip] at h
        cases hch : opNext fuel child c with
        | out => rw [hch] at h; simp [ctxOf] at h
        | viol cv => rw [hch] at h; simp [ctxOf] at h
        | done child' cc =>
          rw [hch] at h
          simp only [ctxOf, Option.some.injEq] at h
          subst h
          exact ih child c cc (by rw [hch]; rfl)
        | row r child' cc =>
          rw [hch] at h
          have h1 := ih child c cc (by rw [hch]; rfl)
          have h2 := ih (.limitOp lim off (sk + 1) ret child')
            (cc.record_instructions 1) c' h
          exact ⟨h2.1.trans h1.1, Nat.le_trans h1.2 h2.2⟩
      · rw [if_neg hskip] at h
        by_cases hstop : 0 ≤ lim ∧ lim ≤ ret
        · rw [if_pos hstop] at h
          simp only [ctxOf, Option.some.injEq] at h
          subst h
          exact ⟨rfl, Nat.le_refl _⟩
        · rw [if_neg hstop] at h
          cases hch : opNext fuel child c with
          | out => rw [hch] at h; simp [ctxOf] at h
          | viol cv => rw [hch] at h; simp [ctxOf] at h
          | done child' cc =>
            rw [hch] at h
            simp only [ctxOf, Option.some.injEq] at h
            subst h
            exact ih child c cc (by rw [hch]; rfl)
          | row r child' cc =>
            rw [hch] at h
            simp only [ctxOf, Option.some.injEq] at h
            subst h
            have h1 := ih child c cc (by rw [hch]; rfl)
            refine ⟨h1.1, ?_⟩
            rw [record_row_returned_rows]
            omega
    | sortOp cols asc buffer mat child =>
      simp only [opNext] at h
      cases mat with
      | true =>
        rw [if_pos rfl] at h
        cases buffer with
        | nil =>
          simp only [ctxOf, Option.some.injEq] at h
          subst h
          exact ⟨rfl, Nat.le_refl _⟩
        | cons r rest =>
          simp only [ctxOf, Option.some.injEq] at h
          subst h
          exact ⟨rfl, Nat.le_refl _⟩
      | false =>
        rw [if_neg (by simp)] at h
        cases hch : opNext fuel child c with
        | out => rw [hch] at h; simp [ctxOf] at h
        | viol cv => rw [hch] at h; simp [ctxOf] at h
        | done child' cc =>
          rw [hch] at h
          have h1 := ih child c cc (by rw [hch]; rfl)
          have h2 := ih (.sortOp cols asc (sortBuffer cols asc buffer) true child')
            (cc.record_instructions (buffer.length * 10)) c' h
          exact ⟨h2.1.trans h1.1, Nat.le_trans h1.2 h2.2⟩
        | row r child' cc =>
          rw [hch] at h
          dsimp only [] at h
          cases hcb : (cc.record_instructions 2).check_budget with
          | error cv => rw [hcb] at h; simp [ctxOf] at h
          | ok c3 =>
            rw [hcb] at h
            have h1 := ih child c cc (by rw [hch]; rfl)
            have h2 := check_budget_ok _ _ hcb
            have h3 := ih (.sortOp cols asc (buffer ++ [r]) false child') c3 c' h
            refine ⟨?_, ?_⟩
            · rw [h3.1, h2.1]
              exact h1.1
            · have : c3.stats.rowsReturned = cc.stats.rowsReturned := h2.2.1
              omega

/-- Any `viol` outcome of `next` carries a recorded, non-`NONE` tag. -/
theorem opNext_viol (fuel : Nat) : ∀ (op : Operator) (c cv : ExecutionContext),
    opNext fuel op c = .viol cv → cv.violation ≠ .NONE := by
  induction fuel with
  | zero => intro op c cv h; cases h
  | succ fuel ih =>
    intro op c cv h
    cases op with
    | tableScan pending =>
      cases pending with
      | nil => simp only [opNext] at h; cases h
      | cons r rest => simp only [opNext] at h; cases h
    | filter child =>
      simp only [opNext] at h
      cases hch : opNext fuel child c with
      | out => rw [hch] at h; cases h
      | viol cc => rw [hch] at h; cases h; exact ih child c cv hch
      | row r child' cc => rw [hch] at h; cases h
      | done child' cc => rw [hch] at h; cases h
    | limitOp lim off sk ret child =>
      simp only [opNext] at h
      by_cases hskip : sk < off
      · rw [if_pos hskip] at h
        cases hch : opNext fuel child c with
        | out => rw [hch] at h; cases h
        | viol cc => rw [hch] at h; cases h; exact ih child c cv hch
        | done child' cc => rw [hch] at h; cases h
        | row r child' cc =>
          rw [hch] at h
          exact ih _ _ _ h
      · rw [if_neg hskip] at h
        by_cases hstop : 0 ≤ lim ∧ lim ≤ ret
        · rw [if_pos hstop] at h; cases h
        · rw [if_neg hstop] at h
          cases hch : opNext fuel child c with
          | out => rw [hch] at h; cases h
          | viol cc => rw [hch] at h; cases h; exact ih child c cv hch
          | done child' cc => rw [hch] at h; cases h
          | row r child' cc => rw [hch] at h; cases h
    | sortOp cols asc buffer mat child =>
      simp only [opNext] at h
      cases mat with
      | true =>
        rw [if_pos rfl] at h
        cases buffer with
        | nil => cases h
        | cons r rest => cases h
      | false =>
        rw [if_neg (by simp)] at h
        cases hch : opNext fuel child c with
        | out => rw [hch] at h; cases h
        | viol cc => rw [hch] at h; cases h; exact ih child c cv hch
        | done child' cc =>
          rw [hch] at h
          exact ih _ _ _ h
        | row r child' cc =>
          rw [hch] at h
          dsimp only [] at h
          cases hcb : (cc.record_instructions 2).check_budget with
          | error ce =>
            rw [hcb] at h
            cases h
            exact (check_budget_error _ _ hcb).2
          | ok c3 =>
            rw [hcb] at h
            exact ih _ _ _ h

/-- A `next` call on a LIMIT-rooted tree that yields a row bumps
`rows_returned` (the root records it) and stays LIMIT-rooted. -/
theorem opNext_limit_row (fuel : Nat) :
    ∀ (lim off sk ret : Int) (child : Operator) (c : ExecutionContext)
      (r : ResultRow) (op' : Operator) (c' : ExecutionContext),
    opNext fuel (.limitOp lim off sk ret child) c = .row r op' c' →
    (∃ l2 o2 s2 r2 ch2, op' = .limitOp l2 o2 s2 r2 ch2) ∧
    c'.budget = c.budget ∧
    c.stats.rowsReturned + 1 ≤ c'.stats.rowsReturned := by
  induction fuel with
  | zero => intro lim off sk ret child c r op' c' h; cases h
  | succ fuel ih =>
    intro lim off sk ret child c r op' c' h
    simp only [opNext] at h
    by_cases hskip : sk < off
    · rw [if_pos hskip] at h
      cases hch : opNext fuel child c with
      | out => rw [hch] at h; cases h
      | viol cc => rw [hch] at h; cases h
      | done child' cc => rw [hch] at h; cases h
      | row r0 child' cc =>
        rw [hch] at h
        have h1 := opNext_mono fuel child c cc (by rw [hch]; rfl)
        have h2 := ih lim off (sk + 1) ret child' (cc.record_instructions 1) r op' c' h
        refine ⟨h2.1, h2.2.1.trans h1.1, ?_⟩
        have h3 : cc.stats.rowsReturned + 1 ≤ c'.stats.rowsReturned := h2.2.2
        have h4 := h1.2
        omega
    · rw [if_neg hskip] at h
      by_cases hstop : 0 ≤ lim ∧ lim ≤ ret
      · rw [if_pos hstop] at h; cases h
      · rw [if_neg hstop] at h
        cases hch : opNext fuel child c with
        | out => rw [hch] at h; cases h
        | viol cc => rw [hch] at h; cases h
        | done child' cc => rw [hch] at h; cases h
        | row r0 child' cc =>
          rw [hch] at h
          cases h
          have h1 := opNext_mono fuel child c cc (by rw [hch]; rfl)
          refine ⟨⟨lim, off, sk, ret + 1, child', rfl⟩, h1.1, ?_⟩
          rw [record_row_returned_rows]
          omega

theorem openOp_preserve (op : Operator) (c : ExecutionContext) :
    (openOp op c).budget = c.budget ∧
    (openOp op c).stats.rowsReturned = c.stats.rowsReturned := by
  induction op generalizing c with
  | tableScan pending => exact ⟨rfl, rfl⟩
  | filter child ih => exact ih c
  | limitOp lim off sk ret child ih => exact ih c
  | sortOp cols asc buffer mat child ih => exact ih c

/-- The `execute_select` drive loop on a LIMIT-rooted tree: every row push
is matched by a `check_budget` whose rows test caps the accumulator. -/
theorem execLoop_limit (fuel : Nat) :
    ∀ (lim off sk ret : Int) (child : Operator) (c : ExecutionContext)
      (acc : List ResultRow) (res : ExecResult) (c' : ExecutionContext),
    execLoop fuel (.limitOp lim off sk ret child) c acc = some (res, c') →
    acc.length ≤ c.stats.rowsReturned →
    acc.length ≤ c.budget.maxResultRows →
    (res.success = true → res.rows.length ≤ c.budget.maxResultRows) ∧
    (res.success = false → res.errorTag = c'.violation ∧ res.errorTag ≠ .NONE ∧
      res.rows = []) := by
  induction fuel with
  | zero => intro lim off sk ret child c acc res c' h _ _; cases h
  | succ fuel ih =>
    intro lim off sk ret child c acc res c' h hinv1 hinv2
    simp only [execLoop] at h
    cases hnx : opNext fuel (.limitOp lim off sk ret child) c with
    | out => rw [hnx] at h; cases h
    | viol cv =>
      rw [hnx] at h
      simp only [Option.some.injEq, Prod.mk.injEq] at h
      obtain ⟨hres, hc⟩ := h
      subst hres
      subst hc
      constructor
      · intro hs; cases hs
      · intro _
        exact ⟨rfl, opNext_viol fuel _ c cv hnx, rfl⟩
    | done op2 cv =>
      rw [hnx] at h
      simp only [Option.some.injEq, Prod.mk.injEq] at h
      obtain ⟨hres, hc⟩ := h
      subst hres
      subst hc
      constructor
      · intro _; exact hinv2
      · intro hs; cases hs
    | row r op2 cc =>
      rw [hnx] at h
      dsimp only [] at h
      have hlim := opNext_limit_row fuel lim off sk ret child c r op2 cc hnx
      obtain ⟨⟨l2, o2, s2, r2, ch2, hop2⟩, hbud, hrow⟩ := hlim
      cases hcb : cc.check_budget with
      | error cv =>
        rw [hcb] at h
        simp only [Option.some.injEq, Prod.mk.injEq] at h
        obtain ⟨hres, hc⟩ := h
        subst hres
        subst hc
        constructor
        · intro hs; cases hs
        · intro _
          exact ⟨rfl, (check_budget_error cc cv hcb).2, rfl⟩
      | ok c2 =>
        rw [hcb] at h
        subst hop2
        have hok := check_budget_ok cc c2 hcb
        have hccmax : cc.stats.rowsReturned < c.budget.maxResultRows := by
          have := hok.2.2
          rw [hbud] at this
          exact this
        have hres := ih l2 o2 s2 r2 ch2 c2 (acc ++ [r]) res c' h
          (by
            rw [List.length_append, hok.2.1]
            simp only [List.length_cons, List.length_nil]
            omega)
          (by
            rw [List.length_append, hok.1, hbud]
            simp only [List.length_cons, List.length_nil]
            omega)
        rw [hok.1, hbud] at hres
        exact hres

/-- Table for the C1 counterexample: a two-row table (the decoded rows are
all-NULL, as `TableScanOperator::next` produces) and a budget with
`max_result_rows = 1`. -/
def c1rows : List ResultRow := [⟨[.nullVal, .nullVal]⟩, ⟨[.nullVal, .nullVal]⟩]

def c1ctx : ExecutionContext :=
  { budget := ⟨1000000, 1000000, 1000, 1⟩
    allocator := ⟨1000000, 0⟩
    stats := ExecutionStats.zero
    elapsed := 0, started := false, aborted := false, violation := .NONE }

/-- C1 counterexample: a plain table-scan plan (no LIMIT operator) is
accepted and returns 2 rows with `success = true`, although
`max_result_rows = 1` — the rows cap is only counted by `LimitOperator`
(`record_row_returned`), so scan-only plans evade it. -/
theorem c1_counterexample :
    (executeSelect 100 (.tableScan c1rows) c1ctx).map
      (fun rc => (rc.1.success, rc.1.rows.length)) = some (true, 2) ∧
    ¬(2 ≤ c1ctx.budget.maxResultRows) := by
  constructor
  · decide
  · decide

/-- C1 (amended): for plans whose operator tree is rooted in a LIMIT
operator (the only operator that records returned rows), every completed
execution either succeeds with at most `max_result_rows` rows, or fails
with the budget-violation tag recorded in the context and no rows
delivered — never a crash.  For plans without LIMIT the row cap is not
enforced (see the counterexample). -/
theorem c1_budget_row_cap (fuel : Nat) (lim off sk ret : Int) (child : Operator)
    (c : ExecutionContext) (res : ExecResult) (c' : ExecutionContext)
    (h : executeSelect fuel (.limitOp lim off sk ret child) c = some (res, c')) :
    (res.success = true → res.rows.length ≤ c.budget.maxResultRows) ∧
    (res.success = false → res.errorTag = c'.violation ∧ res.errorTag ≠ .NONE ∧
      res.rows = []) := by
  unfold executeSelect at h
  have hpre := openOp_preserve (.limitOp lim off sk ret child) c.start
  have hres := execLoop_limit fuel lim off sk ret child
    (openOp (.limitOp lim off sk ret child) c.start) [] res c' h
    (by simp) (by simp)
  rw [hpre.1] at hres
  exact hres

def c1wplan : Operator := .limitOp 5 0 0 0 (.tableScan c1rows)

def c1wctx : ExecutionContext :=
  { budget := ⟨1000000, 1000000, 1000, 10⟩
    allocator := ⟨1000000, 0⟩
    stats := ExecutionStats.zero
    elapsed := 0, started := false, aborted := false, violation := .NONE }

def c1wOut : ExecResult × ExecutionContext :=
  (executeSelect 100 c1wplan c1wctx).getD
    (⟨false, .NONE, [], 0⟩, c1wctx)

theorem c1_witness :
    (c1wOut.1.success = true → c1wOut.1.rows.length ≤ c1wctx.budget.maxResultRows) ∧
    (c1wOut.1.success = false → c1wOut.1.errorTag = c1wOut.2.violation ∧
      c1wOut.1.errorTag ≠ .NONE ∧ c1wOut.1.rows = []) :=
  c1_budget_row_cap 100 5 0 0 0 (.tableScan c1rows) c1wctx c1wOut.1 c1wOut.2
    (by decide)

/-! ## `Executor::execute_insert` (C2)

The C++ function receives only the catalog and the `InsertNode`; it looks
the table up, sets `rows_affected = node.values.size()`, records
`20 · n` instructions and returns success.  It holds no WAL reference and
performs no page operation; the third component below is the list of WAL
records appended during the call, which is therefore always empty. -/
def executeInsert (tables : List String) (tableName : String)
    (values : List (List Literal)) (c : ExecutionContext) :
    ExecResult × ExecutionContext × List WalRecord :=
  if tableName ∈ tables then
    ({ success := true, errorTag := .NONE, rows := [],
       rowsAffected := values.length },
     c.record_instructions (values.length * 20), [])
  else
    ({ success := false, errorTag := .NONE, rows := [], rowsAffected := 0 },
     c, [])

def c2ctx : ExecutionContext :=
  { budget := ⟨1000000, 1000000, 1000, 1000⟩
    allocator := ⟨1000000, 0⟩
    stats := ExecutionStats.zero
    elapsed := 0, started := true, aborted := false, violation := .NONE }

/-- C2, evaluated at the failing input: a one-row INSERT into an existing
table reports success with `rows_affected = 1` while appending zero WAL
records (and touching no page) — the WAL-and-apply step the claim
describes does not exist in `execute_insert`. -/
theorem c2_insert_appends_no_wal :
    (executeInsert ["users"] "users" [[.integer 1, .stringVal "a"]] c2ctx).1.success
        = true ∧
    (executeInsert ["users"] "users" [[.integer 1, .stringVal "a"]]
        c2ctx).1.rowsAffected = 1 ∧
    (executeInsert ["users"] "users" [[.integer 1, .stringVal "a"]]
        c2ctx).2.2 = [] := by
  refine ⟨?_, ?_, ?_⟩ <;> decide

/-! ## `RecoveryManager::needs_recovery` (C7)

Modelled over the parsed record list of the WAL: `read_all`/`read_from`
are the LSN filters of the scan. -/

/-- `RecoveryManager::find_last_checkpoint()`: scan `read_all()` (records
with LSN ≥ 1) and keep the LSN of the last CHECKPOINT, 0 if none. -/
def findLastCheckpoint (rs : List WalRecord) : Nat :=
  (rs.filter (fun r => 1 ≤ r.header.lsn)).foldl
    (fun acc r => if r.header.type = WAL_CHECKPOINT then r.header.lsn else acc) 0

/-- `RecoveryManager::needs_recovery()`: read from the last checkpoint LSN
and report whether more than one record came back ("records other than the
checkpoint itself"). -/
def needs_recovery (rs : List WalRecord) : Bool :=
  decide (1 < (rs.filter (fun r => findLastCheckpoint rs ≤ r.header.lsn)).length)

/-- Modelled from the spec: "there exist WAL records after the last
CHECKPOINT" — the maximal checkpoint-free suffix is nonempty (all records
count when there is no CHECKPOINT at all). -/
def specNeedsRecovery (rs : List WalRecord) : Bool :=
  !(rs.reverse.takeWhile (fun r => !(r.header.type = WAL_CHECKPOINT : Bool))).isEmpty

def c7rec : WalRecord := ⟨⟨1, 0, 0, WAL_INSERT, 1, 0, 0⟩, [1]⟩

/-- C7 counterexample: a WAL with a single INSERT record and no CHECKPOINT
needs recovery per the claim, but `needs_recovery` returns `false`:
with no checkpoint the start LSN is 0, the read returns that one record,
and the `size() > 1` test wrongly assumes the checkpoint itself is among
the results. -/
theorem c7_counterexample :
    needs_recovery [c7rec] = false ∧ specNeedsRecovery [c7rec] = true := by
  refine ⟨?_, ?_⟩ <;> decide

theorem fold_no_checkpoint (l : List WalRecord) (a : Nat)
    (h : ∀ r ∈ l, r.header.type ≠ WAL_CHECKPOINT) :
    l.foldl (fun acc r => if r.header.type = WAL_CHECKPOINT then r.header.lsn
      else acc) a = a := by
  induction l generalizing a with
  | nil => rfl
  | cons r rest ih =>
    show rest.foldl _ (if r.header.type = WAL_CHECKPOINT then r.header.lsn else a) = a
    rw [if_neg (h r (by simp))]
    exact ih a (fun x hx => h x (by simp [hx]))

/-- C7 (amended): `needs_recovery` returns `true` iff the scan from the
last-checkpoint LSN yields more than one record.  When the WAL decomposes
as records strictly before a CHECKPOINT, the CHECKPOINT, and
checkpoint-free records strictly after it (the ordinary strictly-increasing-LSN shape), this equals "some record follows the last
CHECKPOINT", as the claim states; the claim fails only in the
no-CHECKPOINT case of the counterexample. -/
theorem c7_needs_recovery_after_checkpoint (rs1 rs2 : List WalRecord)
    (ck : WalRecord)
    (hck : ck.header.type = WAL_CHECKPOINT)
    (hck1 : 1 ≤ ck.header.lsn)
    (h1 : ∀ r ∈ rs1, 1 ≤ r.header.lsn ∧ r.header.lsn < ck.header.lsn)
    (h2 : ∀ r ∈ rs2, ck.header.lsn < r.header.lsn ∧
      r.header.type ≠ WAL_CHECKPOINT) :
    needs_recovery (rs1 ++ ck :: rs2) = !rs2.isEmpty := by
  have hfilter1 : (rs1 ++ ck :: rs2).filter (fun r => 1 ≤ r.header.lsn) =
      rs1 ++ ck :: rs2 := by
    rw [List.filter_eq_self]
    intro r hr
    simp only [List.mem_append, List.mem_cons] at hr
    rcases hr with hr | hr | hr
    · simpa using (h1 r hr).1
    · subst hr; simpa using hck1
    · have := (h2 r hr).1
      simp only [decide_eq_true_eq]
      omega
  have hlast : findLastCheckpoint (rs1 ++ ck :: rs2) = ck.header.lsn := by
    unfold findLastCheckpoint
    rw [hfilter1, List.foldl_append]
    show (ck :: rs2).foldl _ _ = _
    rw [List.foldl_cons, if_pos hck]
    exact fold_no_checkpoint rs2 ck.header.lsn (fun r hr => (h2 r hr).2)
  unfold needs_recovery
  rw [hlast]
  have hfilter2 : (rs1 ++ ck :: rs2).filter
      (fun r => ck.header.lsn ≤ r.header.lsn) = ck :: rs2 := by
    rw [List.filter_append]
    have hnil : rs1.filter (fun r => ck.header.lsn ≤ r.header.lsn) = [] := by
      rw [List.filter_eq_nil_iff]
      intro r hr
      have := (h1 r hr).2
      simp only [decide_eq_true_eq]
      omega
    rw [hnil, List.nil_append]
    rw [List.filter_cons_of_pos (by simp)]
    congr 1
    rw [List.filter_eq_self]
    intro r hr
    have := (h2 r hr).1
    simp only [decide_eq_true_eq]
    omega
  rw [hfilter2]
  cases rs2 with
  | nil => simp
  | cons x rest => simp

def c7wck : WalRecord := ⟨⟨1, 0, 0, WAL_CHECKPOINT, 0, 0, 0⟩, []⟩
def c7wins : WalRecord := ⟨⟨2, 0, 0, WAL_INSERT, 1, 0, 0⟩, [5]⟩

theorem c7_witness :
    needs_recovery ([] ++ c7wck :: [c7wins]) = !([c7wins].isEmpty) :=
  c7_needs_recovery_after_checkpoint [] [c7wins] c7wck (by decide) (by decide)
    (by decide) (by decide)

/-! ## Sort-order claims (C8) -/

/-- A sort key decides the order of `a, b` iff both rows are long enough
and both values are INTEGERs that differ — the only case the comparator
in `SortOperator::next` acts on. -/
def keyDecides (a b : ResultRow) (p : Nat × Bool) : Bool :=
  !(p.1 ≥ a.values.length || p.1 ≥ b.values.length) &&
  (match a.values[p.1]?, b.values[p.1]? with
   | some (.integer x), some (.integer y) => decide (x ≠ y)
   | _, _ => false)

/-- `a` is less than `b` at a deciding key, per that key's direction. -/
def keyLessB (a b : ResultRow) (p : Nat × Bool) : Bool :=
  keyDecides a b p &&
  (match a.values[p.1]?, b.values[p.1]? with
   | some (.integer x), some (.integer y) =>
     if p.2 then decide (x < y) else decide (x > y)
   | _, _ => false)

/-- Whether an operator state is a SORT node that has materialized. -/
def Operator.isMaterializedSort : Operator → Bool
  | .sortOp _ _ _ m _ => m
  | _ => false

/-- Modelled from the spec: "NULL < non-NULL" — the ordering of a NULL
against a non-NULL value that the claim requires of the comparator. -/
def specNullFirstLess (a b : Literal) : Bool :=
  match a, b with
  | .nullVal, .nullVal => false
  | .nullVal, _ => true
  | _, _ => false

/-- C8 counterexample: on a NULL-vs-INTEGER pair the sort comparator
reports "not less" in both directions (the rows are comparator-equivalent
and are not reordered), whereas the claim's ordering demands NULL strictly
before non-NULL. -/
theorem c8_counterexample :
    sortLess [0] [true] ⟨[.nullVal]⟩ ⟨[.integer 1]⟩ = false ∧
    sortLess [0] [true] ⟨[.integer 1]⟩ ⟨[.nullVal]⟩ = false ∧
    specNullFirstLess .nullVal (.integer 1) = true := by
  refine ⟨?_, ?_, ?_⟩ <;> decide

/-- A `next` on an already-materialized SORT node that yields a row keeps
the node materialized (it only streams the buffer). -/
theorem opNext_materialized_sort_row (fuel : Nat) (cols : List Nat)
    (asc : List Bool) (buf : List ResultRow) (child : Operator)
    (c : ExecutionContext) (r : ResultRow) (op' : Operator)
    (c' : ExecutionContext)
    (h : opNext fuel (.sortOp cols asc buf true child) c = .row r op' c') :
    op'.isMaterializedSort = true := by
  cases fuel with
  | zero => cases h
  | succ fuel =>
    simp only [opNext] at h
    rw [if_pos trivial] at h
    cases buf with
    | nil => cases h
    | cons rr rest => cases h; rfl

/-- A key the comparator skips contributes nothing: the comparison
continues with the remaining keys. -/
theorem sortLessAux_skip (a b : ResultRow) (col : Nat) (ascFlag : Bool)
    (rest : List (Nat × Bool)) (hq : keyDecides a b (col, ascFlag) = false) :
    sortLessAux ((col, ascFlag) :: rest) a b = sortLessAux rest a b := by
  conv_lhs => rw [sortLessAux]
  unfold keyDecides at hq
  dsimp only [] at hq
  by_cases hC : col ≥ a.values.length || col ≥ b.values.length
  · rw [if_pos hC]
  · rw [if_neg hC]
    simp only [Bool.not_eq_true] at hC
    rw [hC] at hq
    simp only [Bool.not_false, Bool.true_and] at hq
    cases hva : a.values[col]? with
    | none => rfl
    | some va =>
      cases hvb : b.values[col]? with
      | none => cases va <;> rfl
      | some vb =>
        rw [hva, hvb] at hq
        cases va <;> cases vb <;> try rfl
        next x y =>
          simp only [decide_eq_false_iff_not, not_not] at hq
          dsimp only []
          rw [if_neg (by simp [hq])]

/-- A key that decides the pair settles the comparison by that key's
direction. -/
theorem sortLessAux_decide (a b : ResultRow) (col : Nat) (ascFlag : Bool)
    (rest : List (Nat × Bool)) (hq : keyDecides a b (col, ascFlag) = true) :
    sortLessAux ((col, ascFlag) :: rest) a b = keyLessB a b (col, ascFlag) := by
  conv_lhs => rw [sortLessAux]
  unfold keyLessB keyDecides
  unfold keyDecides at hq
  dsimp only [] at hq ⊢
  simp only [Bool.and_eq_true] at hq
  obtain ⟨hbound, hvals⟩ := hq
  have hC : ¬(decide (col ≥ a.values.length) || decide (col ≥ b.values.length)) = true := by
    simpa using hbound
  rw [if_neg hC]
  rw [hbound]
  simp only [Bool.not_false, Bool.true_and]
  cases hva : a.values[col]? with
  | none => rw [hva] at hvals; cases hvals
  | some va =>
    cases hvb : b.values[col]? with
    | none =>
      rw [hva, hvb] at hvals
      cases va <;> cases hvals
    | some vb =>
      rw [hva, hvb] at hvals
      cases va <;> cases vb <;> try (exfalso; exact Bool.noConfusion hvals)
      next x y =>
        simp only [decide_eq_true_eq] at hvals
        dsimp only []
        rw [if_pos hvals]
        simp [hvals]

/-- The comparator orders `a` before `b` iff some key decides the pair
(both values INTEGER, different, within both rows) in `a`'s favour per its
direction, all earlier keys skipping. -/
theorem sortLess_first_deciding (ps : List (Nat × Bool)) :
    ∀ (a b : ResultRow),
    (sortLessAux ps a b = true ↔
      ∃ pre p post, ps = pre ++ p :: post ∧
        (∀ q ∈ pre, keyDecides a b q = false) ∧ keyLessB a b p = true) := by
  induction ps with
  | nil =>
    intro a b
    constructor
    · intro h; cases h
    · rintro ⟨pre, p, post, hdecomp, -, -⟩
      exact absurd hdecomp (by simp)
  | cons q rest ih =>
    intro a b
    obtain ⟨col, ascFlag⟩ := q
    by_cases hq : keyDecides a b (col, ascFlag) = true
    · rw [sortLessAux_decide a b col ascFlag rest hq]
      constructor
      · intro h
        exact ⟨[], (col, ascFlag), rest, rfl, by simp, h⟩
      · rintro ⟨pre, p, post, hdecomp, hskip, hless⟩
        cases pre with
        | nil =>
          simp only [List.nil_append, List.cons.injEq] at hdecomp
          rw [hdecomp.1]
          exact hless
        | cons q0 pre' =>
          simp only [List.cons_append, List.cons.injEq] at hdecomp
          exfalso
          have := hskip q0 (by simp)
          rw [← hdecomp.1] at this
          rw [this] at hq
          cases hq
    · have hq' : keyDecides a b (col, ascFlag) = false := by
        simpa using hq
      rw [sortLessAux_skip a b col ascFlag rest hq', ih a b]
      constructor
      · rintro ⟨pre, p, post, hdecomp, hskip, hless⟩
        refine ⟨(col, ascFlag) :: pre, p, post, by rw [hdecomp]; rfl, ?_, hless⟩
        intro z hz
        simp only [List.mem_cons] at hz
        rcases hz with hz | hz
        · subst hz; exact hq'
        · exact hskip z hz
      · rintro ⟨pre, p, post, hdecomp, hskip, hless⟩
        cases pre with
        | nil =>
          simp only [List.nil_append, List.cons.injEq] at hdecomp
          exfalso
          rw [← hdecomp.1] at hless
          unfold keyLessB at hless
          simp only [Bool.and_eq_true] at hless
          exact hq hless.1
        | cons q0 pre' =>
          simp only [List.cons_append, List.cons.injEq] at hdecomp
          exact ⟨pre', p, post, hdecomp.2,
            fun z hz => hskip z (by simp [hz]), hless⟩

/-- C8 (amended): the Sort operator drains its child completely before
emitting its first row (with `check_budget` called per materialized row,
as in the model of `SortOperator::next`), and its comparator orders `a`
before `b` iff some sort key decides the pair — both values INTEGER and
different, compared per-key ascending/descending — with every earlier key
skipping.  NULLs, non-INTEGER values and out-of-range columns never
decide a pair, so "NULL before non-NULL" and cross-type natural order are
not implemented (see the counterexample), and `std::sort` gives no
stability guarantee for comparator-equivalent rows. -/
theorem c8_sort_drain_and_comparator :
    (∀ (fuel : Nat) (cols : List Nat) (asc : List Bool)
       (buffer : List ResultRow) (child : Operator) (c : ExecutionContext)
       (r : ResultRow) (op' : Operator) (c' : ExecutionContext),
       opNext fuel (.sortOp cols asc buffer false child) c = .row r op' c' →
       op'.isMaterializedSort = true) ∧
    (∀ (cols : List Nat) (asc : List Bool) (a b : ResultRow),
       sortLess cols asc a b = true ↔
       ∃ pre p post, cols.zip asc = pre ++ p :: post ∧
         (∀ q ∈ pre, keyDecides a b q = false) ∧ keyLessB a b p = true) := by
  constructor
  · intro fuel
    induction fuel with
    | zero => intro cols asc buffer child c r op' c' h; cases h
    | succ fuel ih =>
      intro cols asc buffer child c r op' c' h
      simp only [opNext] at h
      rw [if_neg (by simp)] at h
      cases hch : opNext fuel child c with
      | out => rw [hch] at h; cases h
      | viol cc => rw [hch] at h; cases h
      | row r0 child' cc =>
        rw [hch] at h
        dsimp only [] at h
        cases hcb : (cc.record_instructions 2).check_budget with
        | error cv => rw [hcb] at h; cases h
        | ok c3 =>
          rw [hcb] at h
          exact ih cols asc (buffer ++ [r0]) child' c3 r op' c' h
      | done child' cc =>
        rw [hch] at h
        dsimp only [] at h
        exact opNext_materialized_sort_row fuel cols asc
          (sortBuffer cols asc buffer) child' _ r op' c' h
  · intro cols asc a b
    exact sortLess_first_deciding (cols.zip asc) a b

def c8wrowA : ResultRow := ⟨[.integer 3]⟩
def c8wrowB : ResultRow := ⟨[.integer 7]⟩

def c8wNext : NextResult :=
  opNext 10 (.sortOp [0] [true] [] false (.tableScan [c8wrowB, c8wrowA]))
    c2ctx

def c8wOp : Operator :=
  match c8wNext with
  | .row _ op' _ => op'
  | _ => .tableScan []

def c8wRow : ResultRow :=
  match c8wNext with
  | .row r _ _ => r
  | _ => ⟨[]⟩

def c8wCtx : ExecutionContext :=
  match c8wNext with
  | .row _ _ c => c
  | _ => c2ctx

theorem c8_witness :
    c8wOp.isMaterializedSort = true ∧
    (∃ pre p post, ([0].zip [true]) = pre ++ p :: post ∧
      (∀ q ∈ pre, keyDecides c8wrowA c8wrowB q = false) ∧
      keyLessB c8wrowA c8wrowB p = true) := by
  obtain ⟨hdrain, hcmp⟩ := c8_sort_drain_and_comparator
  constructor
  · exact hdrain 10 [0] [true] [] (.tableScan [c8wrowB, c8wrowA]) c2ctx
      c8wRow c8wOp c8wCtx (by decide)
  · exact (hcmp [0] [true] c8wrowA c8wrowB).mp (by decide)

/-! ## Transactions (`transaction.hpp` / `transaction.cpp`,
`rw_lock.cpp`) — claim C9

A sequential model: a blocking acquisition is represented as `none` when
the lock is not immediately available (the waiting itself is outside a
shallow embedding; the claim is about handle-drop behaviour, which is
sequential). -/

inductive TransactionState where
  | ACTIVE | COMMITTED | ABORTED
  deriving DecidableEq, Repr

structure Transaction where
  id : Nat
  readOnly : Bool
  state : TransactionState
  deriving DecidableEq, Repr

def Transaction.commit (t : Transaction) : Transaction :=
  { t with state := .COMMITTED }

def Transaction.abortT (t : Transaction) : Transaction :=
  { t with state := .ABORTED }

structure RWLock where
  readers : Nat
  writer : Bool
  waitingWriters : Nat
  deriving DecidableEq, Repr

/-- `RWLock::lock_read` (acquirable iff no writer and no waiting writer). -/
def RWLock.lock_read (l : RWLock) : Option RWLock :=
  if !l.writer && l.waitingWriters = 0 then some { l with readers := l.readers + 1 }
  else none

/-- `RWLock::lock_write` (acquirable iff no readers and no writer). -/
def RWLock.lock_write (l : RWLock) : Option RWLock :=
  if l.readers = 0 && !l.writer then some { l with writer := true }
  else none

def RWLock.unlock_read (l : RWLock) : RWLock :=
  { l with readers := l.readers - 1 }

def RWLock.unlock_write (l : RWLock) : RWLock :=
  { l with writer := false }

/-- `RWLock::try_lock_write`. -/
def RWLock.try_lock_write (l : RWLock) : Option RWLock :=
  if l.readers = 0 && !l.writer then some { l with writer := true } else none

structure TransactionManager where
  lock : RWLock
  nextId : Nat
  activeCount : Nat
  deriving DecidableEq, Repr

def tmInit : TransactionManager := ⟨⟨0, false, 0⟩, 1, 0⟩

/-- `TransactionManager::begin_write`: acquire the write lock, mint an id,
bump the active count, hand back a unique `Transaction` (Active). -/
def TransactionManager.begin_write (m : TransactionManager) :
    Option (Transaction × TransactionManager) :=
  (m.lock.lock_write).map fun l =>
    (⟨m.nextId, false, .ACTIVE⟩,
     { lock := l, nextId := m.nextId + 1, activeCount := m.activeCount + 1 })

/-- `TransactionManager::begin_read`. -/
def TransactionManager.begin_read (m : TransactionManager) :
    Option (Transaction × TransactionManager) :=
  (m.lock.lock_read).map fun l =>
    (⟨m.nextId, true, .ACTIVE⟩,
     { lock := l, nextId := m.nextId + 1, activeCount := m.activeCount + 1 })

/-- `TransactionManager::try_begin_write`. -/
def TransactionManager.try_begin_write (m : TransactionManager) :
    Option (Transaction × TransactionManager) :=
  (m.lock.try_lock_write).map fun l =>
    (⟨m.nextId, false, .ACTIVE⟩,
     { lock := l, nextId := m.nextId + 1, activeCount := m.activeCount + 1 })

/-- `TransactionManager::end_transaction`. -/
def TransactionManager.end_transaction (m : TransactionManager)
    (t : Transaction) : TransactionManager :=
  { m with activeCount := m.activeCount - 1,
           lock := if t.readOnly then m.lock.unlock_read else m.lock.unlock_write }

/-- `TransactionManager::commit(txn)`. -/
def TransactionManager.commitTxn (m : TransactionManager) (t : Transaction) :
    Transaction × TransactionManager :=
  (t.commit, m.end_transaction t)

/-- `TransactionManager::abort(txn)`. -/
def TransactionManager.abortTxn (m : TransactionManager) (t : Transaction) :
    Transaction × TransactionManager :=
  (t.abortT, m.end_transaction t)

/-- Destroying the bare `std::unique_ptr<Transaction>` returned by
`begin_read/begin_write/try_begin_write`: `Transaction` has no destructor
logic, so the object is freed with no state transition and no lock
release. -/
def dropHandle (_t : Transaction) (m : TransactionManager) :
    TransactionManager := m

/-- `TransactionGuard::~TransactionGuard()`: abort iff the held
transaction is still Active. -/
def dropGuard (t : Transaction) (m : TransactionManager) :
    Transaction × TransactionManager :=
  if t.state = .ACTIVE then m.abortTxn t else (t, m)

/-- C9 counterexample: beginning a write transaction and dropping the bare
handle returned by `begin_write` leaves the transaction Active (never
Aborted) and the coordinator's writer lock held — automatic abort exists
only on `TransactionGuard`, which callers must opt into. -/
theorem c9_counterexample :
    tmInit.begin_write = some (⟨1, false, .ACTIVE⟩, ⟨⟨0, true, 0⟩, 2, 1⟩) ∧
    (dropHandle ⟨1, false, .ACTIVE⟩ ⟨⟨0, true, 0⟩, 2, 1⟩).lock.writer = true ∧
    (dropHandle ⟨1, false, .ACTIVE⟩ ⟨⟨0, true, 0⟩, 2, 1⟩).activeCount = 1 ∧
    (⟨1, false, .ACTIVE⟩ : Transaction).state ≠ .ABORTED := by
  refine ⟨?_, ?_, ?_, ?_⟩ <;> decide

/-- C9 (amended): dropping a `TransactionGuard` while its transaction is
Active aborts it — the state flips to Aborted, the coordinator lock is
released (write lock for writers, one reader for readers) and the active
count drops; a guard holding a Committed/Aborted transaction is left
alone.  The bare `unique_ptr<Transaction>` handle has no such behaviour
(see the counterexample). -/
theorem c9_guard_drop_aborts (t : Transaction) (m : TransactionManager)
    (h : t.state = .ACTIVE) :
    (dropGuard t m).1.state = .ABORTED ∧
    (dropGuard t m).2.activeCount = m.activeCount - 1 ∧
    (t.readOnly = false → (dropGuard t m).2.lock.writer = false) ∧
    (t.readOnly = true →
      (dropGuard t m).2.lock.readers = m.lock.readers - 1) := by
  unfold dropGuard
  rw [if_pos h]
  refine ⟨rfl, rfl, ?_, ?_⟩
  · intro hro
    unfold TransactionManager.abortTxn TransactionManager.end_transaction
    rw [hro]
    rfl
  · intro hro
    unfold TransactionManager.abortTxn TransactionManager.end_transaction
    rw [hro]
    rfl

theorem c9_witness :
    (dropGuard ⟨1, false, .ACTIVE⟩ ⟨⟨0, true, 0⟩, 2, 1⟩).1.state = .ABORTED ∧
    (dropGuard ⟨1, false, .ACTIVE⟩ ⟨⟨0, true, 0⟩, 2, 1⟩).2.activeCount = 1 - 1 ∧
    ((false : Bool) = false →
      (dropGuard ⟨1, false, .ACTIVE⟩ ⟨⟨0, true, 0⟩, 2, 1⟩).2.lock.writer = false) ∧
    ((false : Bool) = true →
      (dropGuard ⟨1, false, .ACTIVE⟩ ⟨⟨0, true, 0⟩, 2, 1⟩).2.lock.readers = 0 - 1) :=
  c9_guard_drop_aborts ⟨1, false, .ACTIVE⟩ ⟨⟨0, true, 0⟩, 2, 1⟩ (by decide)

/-! ## Buffer pool / `PageManager` (`page_manager.cpp`) — claim C10

`buffer_pool_` is an association list keyed by `(table_id, page_id)`;
`lru_list_` holds the keys in most-recent-first order (`lru_map_` only
accelerates node lookup and carries no extra state).  Table files are a
`(table_id, page_id) ↦ Page` map; loaded pages are valid by construction,
so `load_page` fails exactly when the slot is absent on disk.  While
loops are encoded with explicit fuel; the theorems show the chosen fuel
suffices exactly when `max_pages ≥ 1`. -/

structure BufferEntry where
  tableId : Nat
  pageId : Nat
  page : Page
  dirty : Bool
  deriving DecidableEq, Repr

structure PMState where
  maxPages : Nat
  pool : List ((Nat × Nat) × BufferEntry)
  lru : List (Nat × Nat)
  nextPageId : List (Nat × Nat)
  disk : List ((Nat × Nat) × Page)
  deriving DecidableEq, Repr

/-- `map::erase(key)` on an association list. -/
def eraseKey {K V : Type} [BEq K] (l : List (K × V)) (k : K) : List (K × V) :=
  l.filter (fun p => !(p.1 == k))

/-- Positional write of a page into a table file (`write_page`). -/
def writeDisk (d : List ((Nat × Nat) × Page)) (k : Nat × Nat) (p : Page) :
    List ((Nat × Nat) × Page) :=
  (k, p) :: eraseKey d k

/-- `PageManager::evict_page`: walk the LRU list from the tail, evict the
first key still resident, writing the page back first when dirty; an
empty or fully stale LRU list evicts nothing. -/
def evict_page (s : PMState) : PMState :=
  match s.lru.reverse.find? (fun k => (s.pool.lookup k).isSome) with
  | none => s
  | some k =>
    match s.pool.lookup k with
    | none => s
    | some e =>
      { s with
        pool := eraseKey s.pool k
        lru := s.lru.erase k
        disk := if e.dirty then writeDisk s.disk k e.page else s.disk }

/-- The `while (buffer_pool_.size() >= max_pages_) evict_page();` loop,
fuelled. -/
def evictLoop (maxPages : Nat) : Nat → PMState → PMState
  | 0, s => s
  | fuel + 1, s =>
    if s.pool.length ≥ maxPages then evictLoop maxPages fuel (evict_page s) else s

/-- `PageManager::allocate_page`: take and bump `next_page_id_[t]`, evict
down below capacity, insert a fresh dirty page at MRU. -/
def allocate_page (s : PMState) (t : Nat) : PMState × Nat :=
  let pid := (s.nextPageId.lookup t).getD 0
  let s1 := { s with nextPageId := (t, pid + 1) :: eraseKey s.nextPageId t }
  let s2 := evictLoop s1.maxPages s1.pool.length s1
  ({ s2 with
     pool := ((t, pid), ⟨t, pid, Page.init pid, true⟩) :: s2.pool
     lru := (t, pid) :: s2.lru }, pid)

/-- `PageManager::load_page`: evict down below capacity, then read the
page from the table file and insert it clean at MRU (`none` when the read
fails). -/
def load_page (s : PMState) (k : Nat × Nat) : Option PMState :=
  let s2 := evictLoop s.maxPages s.pool.length s
  match s2.disk.lookup k with
  | none => none
  | some pg =>
    some { s2 with
      pool := (k, ⟨k.1, k.2, pg, false⟩) :: s2.pool
      lru := k :: s2.lru }

/-- `PageManager::get_page`: on a hit promote the key to MRU; on a miss
delegate to `load_page`. -/
def get_page (s : PMState) (k : Nat × Nat) : Option PMState :=
  if (s.pool.lookup k).isSome then
    some { s with lru := k :: s.lru.erase k }
  else load_page s k

/-- Well-formedness kept by the pool: no duplicate LRU nodes or pool
keys, and the LRU list carries exactly the resident keys. -/
def PMWf (s : PMState) : Prop :=
  s.lru.Nodup ∧ (s.pool.map Prod.fst).Nodup ∧
  (∀ k ∈ s.lru, (s.pool.lookup k).isSome) ∧
  (∀ p ∈ s.pool, p.1 ∈ s.lru)

instance (s : PMState) : Decidable (PMWf s) := by unfold PMWf; infer_instance

theorem lookup_isSome_iff {K V : Type} [BEq K] [LawfulBEq K]
    (l : List (K × V)) (k : K) :
    (l.lookup k).isSome ↔ k ∈ l.map Prod.fst := by
  induction l with
  | nil => simp [List.lookup]
  | cons a t ih =>
    obtain ⟨a1, a2⟩ := a
    by_cases h : k = a1
    · simp [List.lookup, h]
    · have hb : (k == a1) = false := by simp [h]
      simp [List.lookup, hb, ih, h]

theorem eraseKey_of_not_mem {K V : Type} [BEq K] [LawfulBEq K]
    (l : List (K × V)) (k : K) (h : k ∉ l.map Prod.fst) :
    eraseKey l k = l := by
  unfold eraseKey
  refine List.filter_eq_self.2 (fun p hp => ?_)
  have hne : p.1 ≠ k := fun he => h (he ▸ List.mem_map_of_mem Prod.fst hp)
  simp [hne]

theorem eraseKey_length {K V : Type} [BEq K] [LawfulBEq K]
    (l : List (K × V)) (k : K) (hnd : (l.map Prod.fst).Nodup)
    (hs : (l.lookup k).isSome) :
    (eraseKey l k).length + 1 = l.length := by
  induction l with
  | nil => simp [List.lookup] at hs
  | cons a t ih =>
    obtain ⟨a1, a2⟩ := a
    simp only [List.map_cons, List.nodup_cons] at hnd
    by_cases h : a1 = k
    · have hnotin : k ∉ t.map Prod.fst := h ▸ hnd.1
      unfold eraseKey
      have hb : ((a1, a2).1 == k) = true := by simp [h]
      simp only [List.filter_cons, hb, Bool.not_true]
      have he := eraseKey_of_not_mem t k hnotin
      unfold eraseKey at he
      simp [he]
    · have hb : ((a1, a2).1 == k) = false := by simp [h]
      have hs' : (t.lookup k).isSome := by
        have hkb : (k == a1) = false := by simp [Ne.symm h]
        simpa [List.lookup, hkb] using hs
      unfold eraseKey
      simp only [List.filter_cons, hb, Bool.not_false]
      have := ih hnd.2 hs'
      unfold eraseKey at this
      simpa using this

theorem lookup_eraseKey_self {K V : Type} [BEq K] [LawfulBEq K]
    (l : List (K × V)) (k : K) :
    (eraseKey l k).lookup k = none := by
  induction l with
  | nil => rfl
  | cons a t ih =>
    obtain ⟨a1, a2⟩ := a
    by_cases h : a1 = k
    · have hb : ((a1, a2).1 == k) = true := by simp [h]
      unfold eraseKey
      simp only [List.filter_cons, hb, Bool.not_true]
      exact ih
    · have hb : ((a1, a2).1 == k) = false := by simp [h]
      have hkb : (k == a1) = false := by simp [Ne.symm h]
      unfold eraseKey
      simp only [List.filter_cons, hb, Bool.not_false]
      unfold eraseKey at ih
      simpa [List.lookup, hkb] using ih

theorem lookup_eraseKey_ne {K V : Type} [BEq K] [LawfulBEq K]
    (l : List (K × V)) (k k' : K) (h : k' ≠ k) :
    (eraseKey l k).lookup k' = l.lookup k' := by
  induction l with
  | nil => rfl
  | cons a t ih =>
    obtain ⟨a1, a2⟩ := a
    by_cases ha : a1 = k
    · have hb : ((a1, a2).1 == k) = true := by simp [ha]
      have hk' : (k' == a1) = false := by simp [ha, h]
      unfold eraseKey
      unfold eraseKey at ih
      simp only [List.filter_cons, hb, Bool.not_true]
      show (List.filter (fun p => !(p.1 == k)) t).lookup k' = ((a1, a2) :: t).lookup k'
      rw [ih]
      simp [List.lookup, hk']
    · have hb : ((a1, a2).1 == k) = false := by simp [ha]
      unfold eraseKey
      simp only [List.filter_cons, hb, Bool.not_false]
      by_cases ha' : k' = a1
      · simp [List.lookup, ha']
      · have hk' : (k' == a1) = false := by simp [ha']
        unfold eraseKey at ih
        simp only [List.lookup, hk']
        exact ih

theorem eraseKey_keys_nodup {K V : Type} [BEq K]
    (l : List (K × V)) (k : K) (hnd : (l.map Prod.fst).Nodup) :
    ((eraseKey l k).map Prod.fst).Nodup :=
  hnd.sublist ((List.filter_sublist l).map Prod.fst)

theorem evict_page_spec (s : PMState) (hwf : PMWf s) (hne : s.pool ≠ []) :
    (evict_page s).pool.length + 1 = s.pool.length ∧ PMWf (evict_page s) := by
  obtain ⟨hndl, hndp, hl2p, hp2l⟩ := hwf
  obtain ⟨p0, hp0⟩ : ∃ p, p ∈ s.pool := by
    cases hp : s.pool with
    | nil => exact absurd hp hne
    | cons a t => exact ⟨a, by simp [hp]⟩
  have hfind : (s.lru.reverse.find? (fun j => (s.pool.lookup j).isSome)).isSome := by
    rw [List.find?_isSome]
    exact ⟨p0.1, List.mem_reverse.2 (hp2l p0 hp0), hl2p p0.1 (hp2l p0 hp0)⟩
  obtain ⟨k, hk⟩ := Option.isSome_iff_exists.1 hfind
  have hkprop : (s.pool.lookup k).isSome := by
    have := List.find?_some hk
    simpa using this
  obtain ⟨e, he⟩ := Option.isSome_iff_exists.1 hkprop
  have hres : evict_page s =
      { s with
        pool := eraseKey s.pool k
        lru := s.lru.erase k
        disk := if e.dirty then writeDisk s.disk k e.page else s.disk } := by
    unfold evict_page
    rw [hk]
    dsimp only
    rw [he]
  rw [hres]
  constructor
  · exact eraseKey_length s.pool k hndp hkprop
  · unfold PMWf
    dsimp only
    refine ⟨hndl.erase k, hndp.sublist ((List.filter_sublist s.pool).map Prod.fst), ?_, ?_⟩
    · intro k' hk'
      obtain ⟨hne', hmem⟩ := (hndl.mem_erase_iff).1 hk'
      rw [lookup_eraseKey_ne s.pool k k' hne']
      exact hl2p k' hmem
    · intro p hp
      obtain ⟨hmem, hpred⟩ := List.mem_filter.1 hp
      have hne'' : p.1 ≠ k := by simpa using hpred
      exact (hndl.mem_erase_iff).2 ⟨hne'', hp2l p hmem⟩

theorem evict_page_writeback (s : PMState) (k : Nat × Nat) (e : BufferEntry)
    (hk : s.lru.reverse.find? (fun j => (s.pool.lookup j).isSome) = some k)
    (he : s.pool.lookup k = some e) (hd : e.dirty = true) :
    (evict_page s).disk.lookup k = some e.page := by
  unfold evict_page
  rw [hk]
  dsimp only
  rw [he]
  dsimp only
  rw [if_pos hd]
  unfold writeDisk
  simp [List.lookup]

theorem evict_page_empty_lru (s : PMState) (h : s.lru = []) : evict_page s = s := by
  unfold evict_page
  rw [h]
  rfl

theorem evictLoop_spec (M : Nat) (hM : 1 ≤ M) :
    ∀ (fuel : Nat) (s : PMState), PMWf s → s.pool.length < M + fuel →
      PMWf (evictLoop M fuel s) ∧ (evictLoop M fuel s).pool.length < M := by
  intro fuel
  induction fuel with
  | zero =>
    intro s hwf hlt
    rw [evictLoop]
    exact ⟨hwf, by omega⟩
  | succ n ih =>
    intro s hwf hlt
    rw [evictLoop]
    by_cases hge : s.pool.length ≥ M
    · rw [if_pos hge]
      have hne : s.pool ≠ [] := by
        intro h0
        rw [h0] at hge
        simp only [List.length_nil] at hge
        omega
      obtain ⟨hlen, hwf'⟩ := evict_page_spec s hwf hne
      exact ih (evict_page s) hwf' (by omega)
    · rw [if_neg hge]
      exact ⟨hwf, by omega⟩

theorem evictLoop_zero_iterate (fuel : Nat) :
    ∀ s : PMState, evictLoop 0 fuel s = evict_page^[fuel] s := by
  induction fuel with
  | zero =>
    intro s
    rw [evictLoop, Function.iterate_zero_apply]
  | succ n ih =>
    intro s
    rw [evictLoop, if_pos (Nat.zero_le _), ih (evict_page s),
      Function.iterate_succ_apply]

theorem allocate_page_bound (s : PMState) (t : Nat) (hwf : PMWf s)
    (hM : 1 ≤ s.maxPages) :
    (allocate_page s t).1.pool.length ≤ s.maxPages := by
  have hwf1 : PMWf { s with nextPageId :=
      (t, (s.nextPageId.lookup t).getD 0 + 1) :: eraseKey s.nextPageId t } := hwf
  have h := evictLoop_spec s.maxPages hM s.pool.length
      { s with nextPageId :=
          (t, (s.nextPageId.lookup t).getD 0 + 1) :: eraseKey s.nextPageId t }
      hwf1 (show s.pool.length < s.maxPages + s.pool.length by omega)
  have heq : (allocate_page s t).1.pool.length =
      (evictLoop s.maxPages s.pool.length
        { s with nextPageId :=
            (t, (s.nextPageId.lookup t).getD 0 + 1) :: eraseKey s.nextPageId t
          }).pool.length + 1 := rfl
  rw [heq]
  omega

theorem get_page_bound (s : PMState) (k : Nat × Nat) (s' : PMState)
    (hwf : PMWf s) (hM : 1 ≤ s.maxPages) (hlen : s.pool.length ≤ s.maxPages)
    (h : get_page s k = some s') :
    s'.pool.length ≤ s.maxPages := by
  unfold get_page at h
  split at h
  · obtain rfl := Option.some.inj h
    exact hlen
  · simp only [load_page] at h
    have hloop := evictLoop_spec s.maxPages hM s.pool.length s hwf
      (show s.pool.length < s.maxPages + s.pool.length by omega)
    cases hd : (evictLoop s.maxPages s.pool.length s).disk.lookup k with
    | none =>
      rw [hd] at h
      exact absurd h (by simp)
    | some pg =>
      rw [hd] at h
      dsimp only at h
      obtain rfl := Option.some.inj h
      dsimp only
      simp only [List.length_cons]
      omega

/-- C10: with `max_pages ≥ 1` every `allocate_page` and `get_page` call
terminates within the capacity bound: on a well-formed non-empty buffer
pool `evict_page` removes exactly one resident entry, writing the page
back to the table file first when it is dirty, so the eviction loops of
`allocate_page` and `load_page` strictly shrink the pool until its size
is below `max_pages`, and after `allocate_page` or `get_page` the pool
holds at most `max_pages` entries.  With `max_pages = 0` the guard
`size >= max_pages` never turns false — the loop merely iterates
`evict_page`, which on an empty LRU list makes no progress — so
`max_pages ≥ 1` is required for termination. -/
theorem c10_buffer_pool_eviction_termination :
    (∀ s : PMState, PMWf s → s.pool ≠ [] →
        (evict_page s).pool.length + 1 = s.pool.length ∧ PMWf (evict_page s)) ∧
    (∀ (s : PMState) (k : Nat × Nat) (e : BufferEntry),
        s.lru.reverse.find? (fun j => (s.pool.lookup j).isSome) = some k →
        s.pool.lookup k = some e → e.dirty = true →
        (evict_page s).disk.lookup k = some e.page) ∧
    (∀ s : PMState, PMWf s → 1 ≤ s.maxPages →
        (evictLoop s.maxPages s.pool.length s).pool.length < s.maxPages) ∧
    (∀ (s : PMState) (t : Nat), PMWf s → 1 ≤ s.maxPages →
        (allocate_page s t).1.pool.length ≤ s.maxPages) ∧
    (∀ (s : PMState) (k : Nat × Nat) (s' : PMState), PMWf s → 1 ≤ s.maxPages →
        s.pool.length ≤ s.maxPages → get_page s k = some s' →
        s'.pool.length ≤ s.maxPages) ∧
    (∀ (fuel : Nat) (s : PMState), evictLoop 0 fuel s = evict_page^[fuel] s) ∧
    (∀ s : PMState, s.lru = [] → evict_page s = s) := by
  refine ⟨evict_page_spec, evict_page_writeback, ?_, allocate_page_bound,
    get_page_bound, fun fuel s => evictLoop_zero_iterate fuel s,
    evict_page_empty_lru⟩
  intro s hwf hM
  exact (evictLoop_spec s.maxPages hM s.pool.length s hwf (by omega)).2

def c10e0 : BufferEntry := ⟨0, 0, Page.init 0, true⟩

def c10s : PMState := ⟨1, [((0, 0), c10e0)], [(0, 0)], [(0, 1)], []⟩

def c10empty : PMState := ⟨0, [], [], [], []⟩

/-- Witness for C10 at a one-page pool with `max_pages = 1` holding one
dirty page, plus the stuck `max_pages = 0` loop on the empty manager. -/
theorem c10_witness :
    (PMWf c10s ∧ c10s.pool ≠ [] ∧
      (evict_page c10s).pool.length + 1 = c10s.pool.length ∧
      PMWf (evict_page c10s)) ∧
    (evict_page c10s).disk.lookup (0, 0) = some (Page.init 0) ∧
    (evictLoop c10s.maxPages c10s.pool.length c10s).pool.length <
      c10s.maxPages ∧
    (allocate_page c10s 0).1.pool.length ≤ c10s.maxPages ∧
    (get_page c10s (0, 0) = some c10s ∧
      c10s.pool.length ≤ c10s.maxPages) ∧
    evictLoop 0 3 c10empty = evict_page^[3] c10empty ∧
    evict_page c10empty = c10empty :=
  ⟨⟨by decide, by decide,
      c10_buffer_pool_eviction_termination.1 c10s (by decide) (by decide)⟩,
    c10_buffer_pool_eviction_termination.2.1 c10s (0, 0) c10e0
      (by decide) (by decide) (by decide),
    c10_buffer_pool_eviction_termination.2.2.1 c10s (by decide) (by decide),
    c10_buffer_pool_eviction_termination.2.2.2.1 c10s 0 (by decide) (by decide),
    ⟨by decide,
      c10_buffer_pool_eviction_termination.2.2.2.2.1 c10s (0, 0) c10s
        (by decide) (by decide) (by decide) (by decide)⟩,
    c10_buffer_pool_eviction_termination.2.2.2.2.2.1 3 c10empty,
    c10_buffer_pool_eviction_termination.2.2.2.2.2.2 c10empty (by decide)⟩

end EdgeSQL
